import Mathlib

/-!
Verification of the task-scheduler pipeline (src/task_scheduler.py).

Timestamps are modelled as unbounded integers (Python `int(dt.timestamp())`).
Calendar dates are modelled as integer day indices; the local-timezone
day-of function `int_to_datetime(start).date()` is abstracted as a parameter
`dayOf : Int → Int`, instantiated with UTC day flooring for concrete runs.
Priorities (Python floats in [0,1]) are modelled as rationals, which is exact
for the literals used in the concrete instances below.
-/

namespace Scheduler

/-- Lexicographic (non-strict) order on `(start, end)` pairs, the order used by
Python's `list.sort()` on 2-tuples in `combine_consecutive_slots`. -/
def slotLe (a b : Int × Int) : Prop :=
  a.1 < b.1 ∨ (a.1 = b.1 ∧ a.2 ≤ b.2)

instance : DecidableRel slotLe := fun a b => by
  unfold slotLe; infer_instance

instance : IsTotal (Int × Int) slotLe := by
  constructor
  intro a b
  rcases lt_trichotomy a.1 b.1 with h | h | h
  · exact Or.inl (Or.inl h)
  · rcases le_total a.2 b.2 with h2 | h2
    · exact Or.inl (Or.inr ⟨h, h2⟩)
    · exact Or.inr (Or.inr ⟨h.symm, h2⟩)
  · exact Or.inr (Or.inl h)

instance : IsTrans (Int × Int) slotLe := by
  constructor
  rintro a b c (h | ⟨h, h2⟩) (g | ⟨g, g2⟩)
  · exact Or.inl (h.trans g)
  · exact Or.inl (g ▸ h)
  · exact Or.inl (h ▸ g)
  · exact Or.inr ⟨h.trans g, h2.trans g2⟩

/-- The inner merge loop of `combine_consecutive_slots` (lines 58-64): starting
from `combined = [acc]`, each next pair either extends the last block (when its
start equals the last block's end) or is appended as a new block. -/
def mergeRun : (Int × Int) → List (Int × Int) → List (Int × Int)
  | acc, [] => [acc]
  | acc, x :: xs => if x.1 = acc.2 then mergeRun (acc.1, x.2) xs else acc :: mergeRun x xs

/-- Sort one day's slots and run the merge loop (lines 57-64). -/
def dayMerge (l : List (Int × Int)) : List (Int × Int) :=
  match List.insertionSort slotLe l with
  | [] => []
  | h :: t => mergeRun h t

/-- Distinct day keys in first-occurrence order, modelling the insertion order
of the Python dict `day_slots` (lines 49-54). -/
def dedupKeys : List Int → List Int
  | [] => []
  | d :: ds => d :: (dedupKeys ds).filter (fun x => x != d)

/-- Group one task's solved intervals by calendar day (key order = first
occurrence, group contents in encounter order, exactly as the Python dict
builds them) and merge each day's group (lines 49-65). -/
def mergeTaskSlots (dayOf : Int → Int) (slots : List (Int × Int)) : List (Int × Int) :=
  ((dedupKeys (slots.map (fun p => dayOf p.1))).map
    (fun d => dayMerge (slots.filter (fun p => dayOf p.1 == d)))).flatten

/-- `combine_consecutive_slots` (lines 44-66), the task dict modelled as an
association list in insertion order; tasks with an empty slot list are skipped
(line 47-48). -/
def combine_consecutive_slots (dayOf : Int → Int) (ts : List (String × List (Int × Int))) :
    List (String × List (Int × Int)) :=
  (ts.filter (fun t => !t.2.isEmpty)).map (fun t => (t.1, mergeTaskSlots dayOf t.2))

/-- UTC day index of a timestamp; a concrete instance of `dayOf` (the proofs
below hold for every `dayOf`, so the timezone offset is immaterial). -/
def dayOfTimestamp (t : Int) : Int := t.fdiv 86400

/-- Task record (class `Task`, lines 12-19); timestamps already converted to
integers by `datetime_to_int`, `duration` in minutes. -/
structure Task where
  name : String
  start_time : Int
  deadline : Int
  duration : Int
  priority : ℚ
  category : String
  deriving DecidableEq

/-- One recurring weekly availability window as built by `transform_schedules`:
`days` is the weekday-name list, hours are seconds since midnight. -/
structure AvailRule where
  days : List String
  hourStart : Int
  hourEnd : Int
  deriving DecidableEq

def weekdayNames : List String :=
  ["Monday", "Tuesday", "Wednesday", "Thursday", "Friday", "Saturday", "Sunday"]

/-- `strftime("%A")` for an abstract day index (day 0 is a Monday; the proofs
use only that the labelling is 7-periodic). -/
def weekday (d : Int) : String := weekdayNames.getD (d.emod 7).toNat ""

/-- The inner 5-minute emission loop of `create_time_slots` (lines 36-40),
driven by a fuel that bounds the iteration count; the loop guard
`current_slot < end_time` is checked exactly as in the source. -/
def emitSlotsAux : Nat → Int → Int → List (Int × Int)
  | 0, _, _ => []
  | f + 1, cur, endT =>
    if cur < endT then (cur, cur + 300) :: emitSlotsAux f (cur + 300) endT else []

/-- The 5-minute emission loop with sufficient fuel: each iteration advances
`cur` by 300, so `(endT - cur).toNat` iterations always suffice. -/
def emitSlots (cur endT : Int) : List (Int × Int) :=
  emitSlotsAux (endT - cur).toNat cur endT

theorem emitSlotsAux_congr :
    ∀ (f : Nat) {g : Nat} {cur endT : Int}, (endT - cur).toNat ≤ f →
      (endT - cur).toNat ≤ g → emitSlotsAux f cur endT = emitSlotsAux g cur endT := by
  intro f
  induction f with
  | zero =>
    intro g cur endT hf hg
    cases g with
    | zero => rfl
    | succ g =>
      simp only [emitSlotsAux]
      rw [if_neg]
      omega
  | succ f ih =>
    intro g cur endT hf hg
    cases g with
    | zero =>
      simp only [emitSlotsAux]
      rw [if_neg]
      omega
    | succ g =>
      simp only [emitSlotsAux]
      by_cases h : cur < endT
      · rw [if_pos h, if_pos h, ih (g := g) (by omega) (by omega)]
      · rw [if_neg h, if_neg h]

/-- The defining loop equation of `emitSlots`, as written in the source. -/
theorem emitSlots_eq (cur endT : Int) :
    emitSlots cur endT =
      if cur < endT then (cur, cur + 300) :: emitSlots (cur + 300) endT else [] := by
  unfold emitSlots
  by_cases h : cur < endT
  · rw [if_pos h]
    have h1 : (endT - cur).toNat = ((endT - cur).toNat - 1) + 1 := by omega
    rw [h1]
    simp only [emitSlotsAux]
    rw [if_pos h,
      emitSlotsAux_congr (g := (endT - (cur + 300)).toNat) ((endT - cur).toNat - 1)
        (by omega) (by omega)]
  · rw [if_neg h]
    cases hn : (endT - cur).toNat with
    | zero => rfl
    | succ n =>
      simp only [emitSlotsAux]
      rw [if_neg h]

/-- One date's contribution to `create_time_slots` (lines 29-40): for every
category and rule whose weekday list contains this date's weekday, emit the
atomic slots tagged with the category. -/
def slotsForDay (schedules : List (String × List AvailRule)) (d : Int) :
    List (Int × Int × String) :=
  (schedules.map (fun cs =>
    (cs.2.map (fun r =>
      if weekday d ∈ r.days then
        (emitSlots (d * 86400 + r.hourStart) (d * 86400 + r.hourEnd)).map
          (fun p => (p.1, p.2, cs.1))
      else [])).flatten)).flatten

/-- The date loop of `create_time_slots` (lines 27-41), driven by a fuel that
equals the number of remaining dates; the loop guard
`current_date <= end_date` is checked exactly as in the source. -/
def createSlotsAux (schedules : List (String × List AvailRule)) :
    Nat → Int → Int → List (Int × Int × String)
  | 0, _, _ => []
  | f + 1, startDate, endDate =>
    if startDate ≤ endDate then
      slotsForDay schedules startDate ++ createSlotsAux schedules f (startDate + 1) endDate
    else []

/-- `create_time_slots` (lines 25-42): iterate dates from `startDate` to
`endDate` inclusive. -/
def create_time_slots (schedules : List (String × List AvailRule))
    (startDate endDate : Int) : List (Int × Int × String) :=
  createSlotsAux schedules (endDate + 1 - startDate).toNat startDate endDate

/-- The defining loop equation of `create_time_slots`, as written in the
source. -/
theorem create_time_slots_eq (schedules : List (String × List AvailRule))
    (startDate endDate : Int) :
    create_time_slots schedules startDate endDate =
      if startDate ≤ endDate then
        slotsForDay schedules startDate ++ create_time_slots schedules (startDate + 1) endDate
      else [] := by
  unfold create_time_slots
  by_cases h : startDate ≤ endDate
  · rw [if_pos h]
    have h1 : (endDate + 1 - startDate).toNat = (endDate + 1 - (startDate + 1)).toNat + 1 := by
      omega
    rw [h1]
    simp only [createSlotsAux]
    rw [if_pos h]
  · rw [if_neg h]
    cases hn : (endDate + 1 - startDate).toNat with
    | zero => rfl
    | succ n =>
      simp only [createSlotsAux]
      rw [if_neg h]

/-- Chronological (ascending start-time) order of a slot list. -/
def chronological (l : List (Int × Int × String)) : Prop :=
  List.Chain' (fun a b : Int × Int × String => a.1 ≤ b.1) l

/-- Restriction of a slot list to a single category. -/
def restrictCat (c : String) (l : List (Int × Int × String)) : List (Int × Int × String) :=
  l.filter (fun p => p.2.2 == c)

theorem emitSlotsAux_mem :
    ∀ (f : Nat) (cur endT : Int), ∀ p ∈ emitSlotsAux f cur endT,
      p.2 = p.1 + 300 ∧ cur ≤ p.1 ∧ p.1 < endT ∧ (p.1 - cur) % 300 = 0 := by
  intro f
  induction f with
  | zero => intro cur endT p hp; simp [emitSlotsAux] at hp
  | succ f ih =>
    intro cur endT p hp
    simp only [emitSlotsAux] at hp
    by_cases h : cur < endT
    · rw [if_pos h] at hp
      rcases List.mem_cons.1 hp with h1 | h1
      · rw [h1]; refine ⟨rfl, le_refl _, h, by omega⟩
      · obtain ⟨e1, e2, e3, e4⟩ := ih (cur + 300) endT p h1
        exact ⟨e1, by omega, e3, by omega⟩
    · rw [if_neg h] at hp
      simp at hp

theorem emitSlotsAux_chain :
    ∀ (f : Nat) (cur endT : Int),
      List.Chain' (fun a b : Int × Int => a.1 ≤ b.1) (emitSlotsAux f cur endT) := by
  intro f
  induction f with
  | zero => intro cur endT; simp [emitSlotsAux]
  | succ f ih =>
    intro cur endT
    simp only [emitSlotsAux]
    by_cases h : cur < endT
    · rw [if_pos h]
      refine List.chain'_cons'.2 ⟨?_, ih (cur + 300) endT⟩
      intro b hb
      have hbm : b ∈ emitSlotsAux f (cur + 300) endT := List.mem_of_mem_head? hb
      have := (emitSlotsAux_mem f (cur + 300) endT b hbm).2.1
      simp only
      omega
    · rw [if_neg h]
      exact List.chain'_nil

/-- With an aligned range, no emitted slot overshoots the range end. -/
theorem emitSlots_le_end (cur endT : Int) (hal : (endT - cur) % 300 = 0) :
    ∀ p ∈ emitSlots cur endT, p.2 ≤ endT := by
  intro p hp
  obtain ⟨e1, e2, e3, e4⟩ := emitSlotsAux_mem _ cur endT p hp
  omega

/-- With sufficient fuel the emitted slots cover every instant of the range. -/
theorem emitSlotsAux_cover :
    ∀ (f : Nat) (cur endT τ : Int), (endT - cur).toNat ≤ f → cur ≤ τ → τ < endT →
      ∃ p ∈ emitSlotsAux f cur endT, p.1 ≤ τ ∧ τ < p.2 := by
  intro f
  induction f with
  | zero => intro cur endT τ hf h1 h2; omega
  | succ f ih =>
    intro cur endT τ hf h1 h2
    have h : cur < endT := by omega
    simp only [emitSlotsAux, if_pos h]
    by_cases hτ : τ < cur + 300
    · exact ⟨(cur, cur + 300), List.mem_cons_self _ _, h1, hτ⟩
    · obtain ⟨p, hp, hc⟩ := ih (cur + 300) endT τ (by omega) (by omega) h2
      exact ⟨p, List.mem_cons_of_mem _ hp, hc⟩

theorem mem_slotsForDay {sched : List (String × List AvailRule)} {d : Int}
    {p : Int × Int × String} :
    p ∈ slotsForDay sched d ↔
      ∃ cs ∈ sched, ∃ r ∈ cs.2, weekday d ∈ r.days ∧
        ∃ q ∈ emitSlots (d * 86400 + r.hourStart) (d * 86400 + r.hourEnd),
          p = (q.1, q.2, cs.1) := by
  constructor
  · intro hp
    obtain ⟨l, hl, hpl⟩ := List.mem_flatten.1 hp
    obtain ⟨cs, hcs, rfl⟩ := List.mem_map.1 hl
    obtain ⟨l2, hl2, hpl2⟩ := List.mem_flatten.1 hpl
    obtain ⟨r, hr, rfl⟩ := List.mem_map.1 hl2
    by_cases hw : weekday d ∈ r.days
    · rw [if_pos hw] at hpl2
      obtain ⟨q, hq, rfl⟩ := List.mem_map.1 hpl2
      exact ⟨cs, hcs, r, hr, hw, q, hq, rfl⟩
    · rw [if_neg hw] at hpl2
      simp at hpl2
  · rintro ⟨cs, hcs, r, hr, hw, q, hq, rfl⟩
    refine List.mem_flatten.2 ⟨_, List.mem_map.2 ⟨cs, hcs, rfl⟩, ?_⟩
    refine List.mem_flatten.2 ⟨_, List.mem_map.2 ⟨r, hr, rfl⟩, ?_⟩
    rw [if_pos hw]
    exact List.mem_map.2 ⟨q, hq, rfl⟩

theorem mem_createSlotsAux {sched : List (String × List AvailRule)} :
    ∀ {f : Nat} {d0 d1 : Int} {p}, p ∈ createSlotsAux sched f d0 d1 →
      ∃ d, d0 ≤ d ∧ d ≤ d1 ∧ p ∈ slotsForDay sched d := by
  intro f
  induction f with
  | zero => intro d0 d1 p hp; simp [createSlotsAux] at hp
  | succ f ih =>
    intro d0 d1 p hp
    simp only [createSlotsAux] at hp
    by_cases h : d0 ≤ d1
    · rw [if_pos h] at hp
      rcases List.mem_append.1 hp with h1 | h1
      · exact ⟨d0, le_refl _, h, h1⟩
      · obtain ⟨d, hd1, hd2, hd3⟩ := ih h1
        exact ⟨d, by omega, hd2, hd3⟩
    · rw [if_neg h] at hp
      simp at hp

theorem createSlotsAux_mem_of {sched : List (String × List AvailRule)} :
    ∀ (f : Nat) (d0 d1 d : Int) {p}, (d1 + 1 - d0).toNat ≤ f → d0 ≤ d → d ≤ d1 →
      p ∈ slotsForDay sched d → p ∈ createSlotsAux sched f d0 d1 := by
  intro f
  induction f with
  | zero => intro d0 d1 d p hf h1 h2 hp; omega
  | succ f ih =>
    intro d0 d1 d p hf h1 h2 hp
    have h : d0 ≤ d1 := le_trans h1 h2
    simp only [createSlotsAux, if_pos h]
    refine List.mem_append.2 ?_
    by_cases hd : d = d0
    · exact Or.inl (hd ▸ hp)
    · exact Or.inr (ih (d0 + 1) d1 d (by omega) (by omega) h2 hp)

theorem mem_create_time_slots {sched : List (String × List AvailRule)}
    {d0 d1 : Int} {p : Int × Int × String} :
    p ∈ create_time_slots sched d0 d1 ↔
      ∃ d, d0 ≤ d ∧ d ≤ d1 ∧ p ∈ slotsForDay sched d := by
  constructor
  · exact mem_createSlotsAux
  · rintro ⟨d, h1, h2, hp⟩
    exact createSlotsAux_mem_of _ d0 d1 d (le_refl _) h1 h2 hp

/-- Every slot of a single day lies inside that day, assuming rule hours are
genuine times of day (nonnegative, at most 24h). -/
theorem slotsForDay_day_bounds {sched : List (String × List AvailRule)} {d : Int}
    (hday : ∀ cs ∈ sched, ∀ r ∈ cs.2, 0 ≤ r.hourStart ∧ r.hourEnd ≤ 86400) :
    ∀ p ∈ slotsForDay sched d, d * 86400 ≤ p.1 ∧ p.1 < (d + 1) * 86400 := by
  intro p hp
  obtain ⟨cs, hcs, r, hr, hw, q, hq, rfl⟩ := mem_slotsForDay.1 hp
  obtain ⟨e1, e2, e3, e4⟩ := emitSlotsAux_mem _ _ _ q hq
  obtain ⟨hs0, he1⟩ := hday cs hcs r hr
  simp only
  omega

theorem slotsForDay_cons (cs : String × List AvailRule)
    (sched : List (String × List AvailRule)) (d : Int) :
    slotsForDay (cs :: sched) d = slotsForDay [cs] d ++ slotsForDay sched d := by
  simp [slotsForDay]

theorem slotsForDay_single_tag (cs : String × List AvailRule) (d : Int) :
    ∀ p ∈ slotsForDay [cs] d, p.2.2 = cs.1 := by
  intro p hp
  obtain ⟨cs2, hcs2, r, hr, hw, q, hq, rfl⟩ := mem_slotsForDay.1 hp
  rcases List.mem_singleton.1 hcs2 with rfl
  rfl

theorem slotsForDay_tag_mem {sched : List (String × List AvailRule)} {d : Int} :
    ∀ p ∈ slotsForDay sched d, p.2.2 ∈ sched.map Prod.fst := by
  intro p hp
  obtain ⟨cs, hcs, r, hr, hw, q, hq, rfl⟩ := mem_slotsForDay.1 hp
  exact List.mem_map.2 ⟨cs, hcs, rfl⟩

/-- A one-rule category emits a chronologically sorted day block. -/
theorem chron_slotsForDay_single (cs : String × List AvailRule) (d : Int)
    (h1 : cs.2.length ≤ 1) :
    chronological (slotsForDay [cs] d) := by
  rcases cs with ⟨c, rules⟩
  match rules, h1 with
  | [], _ => simp [slotsForDay, chronological]
  | [r], _ =>
    simp only [slotsForDay, List.map_cons, List.map_nil, List.flatten_cons,
      List.flatten_nil, List.append_nil]
    by_cases hw : weekday d ∈ r.days
    · rw [if_pos hw]
      unfold chronological
      rw [List.chain'_map]
      exact emitSlotsAux_chain _ _ _
    · rw [if_neg hw]
      simp [chronological]

theorem restrictCat_append (c : String) (l1 l2 : List (Int × Int × String)) :
    restrictCat c (l1 ++ l2) = restrictCat c l1 ++ restrictCat c l2 := by
  simp [restrictCat]

/-- Restricting one day's slots to a category: with unique category keys and at
most one rule per category, the result is chronological. -/
theorem chron_restrict_slotsForDay (c : String) :
    ∀ (sched : List (String × List AvailRule)), (∀ cs ∈ sched, cs.2.length ≤ 1) →
      (sched.map Prod.fst).Nodup → ∀ d : Int,
      chronological (restrictCat c (slotsForDay sched d)) := by
  intro sched
  induction sched with
  | nil => intro h1 h2 d; simp [slotsForDay, restrictCat, chronological]
  | cons cs rest ih =>
    intro h1 h2 d
    rw [slotsForDay_cons, restrictCat_append]
    by_cases hc : cs.1 = c
    · have hrest : restrictCat c (slotsForDay rest d) = [] := by
        refine List.filter_eq_nil_iff.2 ?_
        intro p hp
        have htag := slotsForDay_tag_mem p hp
        have hnodup := List.nodup_cons.1 h2
        simp only [beq_iff_eq]
        intro hpc
        refine hnodup.1 ?_
        rw [hc, ← hpc]
        exact htag
      rw [hrest, List.append_nil]
      have hself : restrictCat c (slotsForDay [cs] d) = slotsForDay [cs] d := by
        refine List.filter_eq_self.2 ?_
        intro p hp
        simp only [beq_iff_eq]
        rw [slotsForDay_single_tag cs d p hp, hc]
      rw [hself]
      exact chron_slotsForDay_single cs d (h1 cs (List.mem_cons_self _ _))
    · have hsing : restrictCat c (slotsForDay [cs] d) = [] := by
        refine List.filter_eq_nil_iff.2 ?_
        intro p hp
        simp only [beq_iff_eq]
        rw [slotsForDay_single_tag cs d p hp]
        exact hc
      rw [hsing, List.nil_append]
      exact ih (fun x hx => h1 x (List.mem_cons_of_mem _ hx)) (List.nodup_cons.1 h2).2 d

/-- **C6** (counterexample to the claim as stated): a rule whose hour range
[0, 420) is not a multiple of the 5-minute granularity produces the slot
(300, 600), whose end lies strictly beyond the rule's range end 420 — the slot
does not lie within the generating rule's hour range, and the emitted slots do
not exactly cover the range. -/
theorem C6_counterexample_slot_overshoots_rule_range :
    (300, 600, "w") ∈ create_time_slots [("w", [⟨["Monday"], 0, 420⟩])] 0 0 ∧
    ¬ ((600 : Int) ≤ 0 * 86400 + 420) := by
  constructor
  · decide
  · decide

/-- **C6** (amended): provided every rule's hour range length is a multiple of
the 5-minute granularity (whole-hour ranges in particular) and its hours are
genuine times of day, every slot emitted by the Slot Generator spans exactly
300 seconds, lies within one calendar day and within a generating rule's hour
range on a matching date, and the emitted slots exactly cover each matching
rule range. -/
theorem C6_slots_granular_within_rule_and_day (sched : List (String × List AvailRule))
    (d0 d1 : Int)
    (hal : ∀ cs ∈ sched, ∀ r ∈ cs.2, (r.hourEnd - r.hourStart) % 300 = 0)
    (hday : ∀ cs ∈ sched, ∀ r ∈ cs.2, 0 ≤ r.hourStart ∧ r.hourEnd ≤ 86400) :
    (∀ p ∈ create_time_slots sched d0 d1,
      p.2.1 - p.1 = 300 ∧
      ∃ d, d0 ≤ d ∧ d ≤ d1 ∧ d * 86400 ≤ p.1 ∧ p.2.1 ≤ (d + 1) * 86400 ∧
        ∃ cs ∈ sched, ∃ r ∈ cs.2, p.2.2 = cs.1 ∧ weekday d ∈ r.days ∧
          d * 86400 + r.hourStart ≤ p.1 ∧ p.2.1 ≤ d * 86400 + r.hourEnd) ∧
    (∀ d : Int, d0 ≤ d → d ≤ d1 → ∀ cs ∈ sched, ∀ r ∈ cs.2, weekday d ∈ r.days →
      ∀ τ : Int, d * 86400 + r.hourStart ≤ τ → τ < d * 86400 + r.hourEnd →
        ∃ p ∈ create_time_slots sched d0 d1, p.2.2 = cs.1 ∧ p.1 ≤ τ ∧ τ < p.2.1) := by
  constructor
  · intro p hp
    obtain ⟨d, hd0, hd1, hpd⟩ := mem_create_time_slots.1 hp
    obtain ⟨cs, hcs, r, hr, hw, q, hq, rfl⟩ := mem_slotsForDay.1 hpd
    obtain ⟨e1, e2, e3, e4⟩ := emitSlotsAux_mem _ _ _ q hq
    have hle : q.2 ≤ d * 86400 + r.hourEnd := by
      refine emitSlots_le_end _ _ ?_ q hq
      have := hal cs hcs r hr
      omega
    obtain ⟨hs0, he1⟩ := hday cs hcs r hr
    refine ⟨by simp only; omega, d, hd0, hd1, by simp only; omega, by simp only; omega,
      cs, hcs, r, hr, rfl, hw, by simp only; omega, by simp only; omega⟩
  · intro d hd0 hd1 cs hcs r hr hw τ hτ1 hτ2
    obtain ⟨q, hq, hc1, hc2⟩ :=
      emitSlotsAux_cover _ (d * 86400 + r.hourStart) (d * 86400 + r.hourEnd) τ
        (le_refl _) hτ1 hτ2
    refine ⟨(q.1, q.2, cs.1), ?_, rfl, hc1, hc2⟩
    exact mem_create_time_slots.2 ⟨d, hd0, hd1, mem_slotsForDay.2 ⟨cs, hcs, r, hr, hw, q, hq, rfl⟩⟩

/-- **C6** witness: the amended statement applied to the concrete one-rule
calendar `schedD` on the single date 0. -/
theorem C6_witness :
    (∀ p ∈ create_time_slots [("w", [⟨["Monday"], (0 : Int), 600⟩])] 0 0,
      p.2.1 - p.1 = 300 ∧
      ∃ d : Int, 0 ≤ d ∧ d ≤ 0 ∧ d * 86400 ≤ p.1 ∧ p.2.1 ≤ (d + 1) * 86400 ∧
        ∃ cs ∈ [("w", [(⟨["Monday"], 0, 600⟩ : AvailRule)])], ∃ r ∈ cs.2,
          p.2.2 = cs.1 ∧ weekday d ∈ r.days ∧
          d * 86400 + r.hourStart ≤ p.1 ∧ p.2.1 ≤ d * 86400 + r.hourEnd) ∧
    (∀ d : Int, 0 ≤ d → d ≤ 0 →
      ∀ cs ∈ [("w", [(⟨["Monday"], 0, 600⟩ : AvailRule)])], ∀ r ∈ cs.2,
      weekday d ∈ r.days →
      ∀ τ : Int, d * 86400 + r.hourStart ≤ τ → τ < d * 86400 + r.hourEnd →
        ∃ p ∈ create_time_slots [("w", [⟨["Monday"], (0 : Int), 600⟩])] 0 0,
          p.2.2 = cs.1 ∧ p.1 ≤ τ ∧ τ < p.2.1) :=
  C6_slots_granular_within_rule_and_day [("w", [⟨["Monday"], 0, 600⟩])] 0 0
    (by decide) (by decide)

/-- **C8** (counterexample to the claim as stated): a category with two rules
listed out of chronological order on the same weekday emits its later window
first; restricted to that category the output is not chronologically sorted. -/
theorem C8_counterexample_two_rules_out_of_order :
    restrictCat "w" (create_time_slots [("w", [⟨["Monday"], 600, 900⟩, ⟨["Monday"], 0, 300⟩])] 0 0)
      = [(600, 900, "w"), (0, 300, "w")] ∧
    ¬ chronological
      (restrictCat "w"
        (create_time_slots [("w", [⟨["Monday"], 600, 900⟩, ⟨["Monday"], 0, 300⟩])] 0 0)) := by
  have hlist :
      restrictCat "w"
        (create_time_slots [("w", [⟨["Monday"], 600, 900⟩, ⟨["Monday"], 0, 300⟩])] 0 0)
        = [(600, 900, "w"), (0, 300, "w")] := by decide
  refine ⟨hlist, ?_⟩
  intro h
  rw [hlist] at h
  have h600 := (List.chain'_cons.1 h).1
  simp only at h600
  omega

/-- **C8** (amended): when every category has at most one AvailabilityRule
(with genuine time-of-day hours) and category keys are unique, the Slot
Generator's output restricted to any single category is chronologically
sorted; the date loop ascends and each day's block is sorted, so blocks
concatenate in order. -/
theorem C8_single_rule_categories_chronological (sched : List (String × List AvailRule))
    (h1 : ∀ cs ∈ sched, cs.2.length ≤ 1) (h2 : (sched.map Prod.fst).Nodup)
    (hday : ∀ cs ∈ sched, ∀ r ∈ cs.2, 0 ≤ r.hourStart ∧ r.hourEnd ≤ 86400)
    (d0 d1 : Int) (c : String) :
    chronological (restrictCat c (create_time_slots sched d0 d1)) := by
  suffices h : ∀ (f : Nat) (a b : Int),
      chronological (restrictCat c (createSlotsAux sched f a b)) from
    h _ d0 d1
  intro f
  induction f with
  | zero => intro a b; simp [createSlotsAux, restrictCat, chronological]
  | succ f ih =>
    intro a b
    simp only [createSlotsAux]
    by_cases h : a ≤ b
    · rw [if_pos h, restrictCat_append]
      refine List.chain'_append.2 ⟨chron_restrict_slotsForDay c sched h1 h2 a, ih (a + 1) b, ?_⟩
      intro x hx y hy
      have hxm : x ∈ slotsForDay sched a :=
        List.mem_of_mem_filter (List.mem_of_mem_getLast? hx)
      have hym : y ∈ createSlotsAux sched f (a + 1) b :=
        List.mem_of_mem_filter (List.mem_of_mem_head? hy)
      obtain ⟨d, hd1, hd2, hyd⟩ := mem_createSlotsAux hym
      have hxb := (slotsForDay_day_bounds hday x hxm).2
      have hyb := (slotsForDay_day_bounds hday y hyd).1
      have : (a + 1) * 86400 ≤ d * 86400 := by nlinarith
      omega
    · rw [if_neg h]
      simp [restrictCat, chronological]

/-- **C8** witness: the amended statement at the concrete one-rule calendar
over a two-day range. -/
theorem C8_witness :
    chronological
      (restrictCat "w" (create_time_slots [("w", [⟨["Monday"], (0 : Int), 600⟩])] 0 1)) :=
  C8_single_rule_categories_chronological [("w", [⟨["Monday"], 0, 600⟩])]
    (by decide) (by decide) (by decide) 0 1 "w"

/-- Candidate slots of a task (line 156): matching category, start at or after
the task's start bound, end at or before its deadline. -/
def validSlots (t : Task) (all : List (Int × Int × String)) : List (Int × Int) :=
  (all.filter (fun s =>
    s.2.2 == t.category && decide (t.start_time ≤ s.1) && decide (s.2.1 ≤ t.deadline))).map
    (fun s => (s.1, s.2.1))

/-- The split loop (lines 170-190): first-fit over the candidate slots, taking
`min remaining (end - start)` from each until nothing remains; returns the
(anchor slot, take) pairs in creation order. -/
def splitLoop (remaining : Int) : List (Int × Int) → List ((Int × Int) × Int)
  | [] => []
  | (s, e) :: rest =>
    if remaining ≤ 0 then []
    else ((s, e), min remaining (e - s)) :: splitLoop (remaining - min remaining (e - s)) rest

/-- The value of `remaining_duration` after the split loop (checked at
line 192). -/
def splitRemaining (remaining : Int) : List (Int × Int) → Int
  | [] => remaining
  | (s, e) :: rest =>
    if remaining ≤ 0 then remaining
    else splitRemaining (remaining - min remaining (e - s)) rest

/-- What the task loop (lines 155-202) registers for a task that has at least
one candidate slot: the common domain bounds of its start/end variables
(lines 164-165, both are `[min starts, max starts]`), its duration in seconds,
its split intervals, and whether the insufficient-capacity warning fired
(lines 192-194; the task is registered into the model either way). -/
structure RegTask where
  name : String
  startLo : Int
  startHi : Int
  durationSec : Int
  priority : ℚ
  splits : List ((Int × Int) × Int)
  delayed : Bool
  deriving DecidableEq

/-- The module-level task loop (lines 155-202): returns the registered tasks
(in `task_vars` order) and the `update_task_status` calls issued (in order). -/
def buildModel : List Task → List (Int × Int × String) → List RegTask × List (String × String)
  | [], _ => ([], [])
  | t :: ts, all =>
    let rest := buildModel ts all
    match validSlots t all with
    | [] => (rest.1, (t.name, "delayed") :: rest.2)
    | v :: vs =>
      let lo := (vs.map Prod.fst).foldl min v.1
      let hi := (vs.map Prod.fst).foldl max v.1
      let sp := splitLoop (t.duration * 60) (v :: vs)
      let rem := splitRemaining (t.duration * 60) (v :: vs)
      (⟨t.name, lo, hi, t.duration * 60, t.priority, sp, decide (0 < rem)⟩ :: rest.1,
       if 0 < rem then (t.name, "delayed") :: rest.2 else rest.2)

/-- A solver assignment: integer values for each registered task's start and
end variables and for each split interval's start position. -/
structure Assignment where
  taskStart : Nat → Int
  taskEnd : Nat → Int
  splitPos : Nat → Nat → Int

/-- The per-task constraints the code adds: the start/end variable domains
(lines 164-165), the equality `end = start + duration*60` (line 167), and each
split's containment in its anchor slot (lines 181-187), which for a split of
length `take` anchored at `(s, e)` says `s ≤ pos` and `pos + take ≤ e`. -/
def TaskSat (a : Assignment) (ti : Nat) (r : RegTask) : Prop :=
  r.startLo ≤ a.taskStart ti ∧ a.taskStart ti ≤ r.startHi ∧
  r.startLo ≤ a.taskEnd ti ∧ a.taskEnd ti ≤ r.startHi ∧
  a.taskEnd ti = a.taskStart ti + r.durationSec ∧
  ∀ si : Fin r.splits.length,
    (r.splits.get si).1.1 ≤ a.splitPos ti si ∧
    a.splitPos ti si + (r.splits.get si).2 ≤ (r.splits.get si).1.2

/-- The single global `AddNoOverlap` constraint (line 205) over the flat list
`overlap_intervals` of every registered task's splits; as in CP-SAT, zero-size
intervals are not constrained. -/
def NoOverlapSat (a : Assignment) (regs : List RegTask) : Prop :=
  ∀ ti tj : Fin regs.length, ∀ si : Fin (regs.get ti).splits.length,
    ∀ sj : Fin (regs.get tj).splits.length,
    (ti.1, si.1) ≠ (tj.1, sj.1) →
    ((regs.get ti).splits.get si).2 = 0 ∨ ((regs.get tj).splits.get sj).2 = 0 ∨
    a.splitPos ti si + ((regs.get ti).splits.get si).2 ≤ a.splitPos tj sj ∨
    a.splitPos tj sj + ((regs.get tj).splits.get sj).2 ≤ a.splitPos ti si

/-- An assignment satisfies every constraint of the built model. -/
def Sat (a : Assignment) (regs : List RegTask) : Prop :=
  (∀ ti : Fin regs.length, TaskSat a ti (regs.get ti)) ∧ NoOverlapSat a regs

instance (a : Assignment) (ti : Nat) (r : RegTask) : Decidable (TaskSat a ti r) := by
  unfold TaskSat; infer_instance

instance (a : Assignment) (regs : List RegTask) : Decidable (NoOverlapSat a regs) := by
  unfold NoOverlapSat; infer_instance

instance (a : Assignment) (regs : List RegTask) : Decidable (Sat a regs) := by
  unfold Sat; infer_instance

/-- Reading back one task's solved `(start, end)` values (lines 218-222). -/
def solvedIntervals (a : Assignment) (ti : Nat) (r : RegTask) : List (Int × Int) :=
  r.splits.enum.map (fun p => (a.splitPos ti p.1, a.splitPos ti p.1 + p.2.2))

/-- `task_schedule` (lines 217-222), keyed per registered task. -/
def taskScheduleList (a : Assignment) (regs : List RegTask) :
    List (String × List (Int × Int)) :=
  regs.enum.map (fun p => (p.2.name, solvedIntervals a p.1 p.2))

/-- The reconstructed merged schedule (line 224). -/
def reconstructedSchedule (dayOf : Int → Int) (a : Assignment) (regs : List RegTask) :
    List (String × List (Int × Int)) :=
  combine_consecutive_slots dayOf (taskScheduleList a regs)

/-- Solver outcomes (spec section 4.4); a satisfying outcome carries the
assignment the solver returned. -/
inductive Outcome where
  | optimal (a : Assignment)
  | feasible (a : Assignment)
  | infeasible
  | unknown

/-- The output stage's result: the reconstructed schedule, or the single
"No solution found." report (lines 216-230). -/
inductive PassResult where
  | schedule (s : List (String × List (Int × Int)))
  | noSolution
  deriving DecidableEq

/-- The pass around the solver call: the status updates issued (all during
model building, lines 159-194) and the output stage's result; the output stage
itself (lines 216-230) issues no status updates. -/
def runPass (dayOf : Int → Int) (tasks : List Task) (all : List (Int × Int × String))
    (oc : Outcome) : List (String × String) × PassResult :=
  let built := buildModel tasks all
  match oc with
  | .optimal a => (built.2, .schedule (reconstructedSchedule dayOf a built.1))
  | .feasible a => (built.2, .schedule (reconstructedSchedule dayOf a built.1))
  | .infeasible => (built.2, .noSolution)
  | .unknown => (built.2, .noSolution)

/-- The objective `sum(priority * task_starts[name])` (lines 207-209). -/
def objective (a : Assignment) (regs : List RegTask) : ℚ :=
  (regs.enum.map (fun p => p.2.priority * (a.taskStart p.1 : ℚ))).sum

/-- Two time ranges intersect when some instant lies in both (half-open). -/
def rangesIntersect (x y : Int × Int) : Prop :=
  ∃ τ : Int, (x.1 ≤ τ ∧ τ < x.2) ∧ (y.1 ≤ τ ∧ τ < y.2)

example : mergeRun (0, 300) [(300, 600), (900, 1200)] = [(0, 600), (900, 1200)] := by decide

example : dayMerge [(900, 1200), (0, 300), (300, 600)] = [(0, 600), (900, 1200)] := by decide

example :
    combine_consecutive_slots dayOfTimestamp [("a", [(300, 600), (0, 300)]), ("b", [])] =
      [("a", [(0, 600)])] := by decide

/-! ### Length preservation through the block merge -/

/-- Length of a `(start, end)` block. -/
def blockLen (p : Int × Int) : Int := p.2 - p.1

theorem mergeRun_sum : ∀ (t : List (Int × Int)) (h : Int × Int),
    ((mergeRun h t).map blockLen).sum = blockLen h + (t.map blockLen).sum := by
  intro t
  induction t with
  | nil => intro h; simp [mergeRun]
  | cons x xs ih =>
    intro h
    simp only [mergeRun]
    by_cases hx : x.1 = h.2
    · rw [if_pos hx, ih]
      simp only [List.map_cons, List.sum_cons, blockLen]
      omega
    · rw [if_neg hx]
      simp only [List.map_cons, List.sum_cons, ih]

theorem dayMerge_sum (l : List (Int × Int)) :
    ((dayMerge l).map blockLen).sum = (l.map blockLen).sum := by
  unfold dayMerge
  have hperm : (List.insertionSort slotLe l).Perm l := List.perm_insertionSort slotLe l
  cases h : List.insertionSort slotLe l with
  | nil =>
    rw [h] at hperm
    have hl : l = [] := hperm.symm.eq_nil
    rw [hl]
  | cons h1 t =>
    rw [h] at hperm
    rw [mergeRun_sum]
    have hs := (hperm.map blockLen).sum_eq
    simp only [List.map_cons, List.sum_cons] at hs
    omega

theorem mem_dedupKeys : ∀ (l : List Int) (a : Int), a ∈ dedupKeys l ↔ a ∈ l := by
  intro l
  induction l with
  | nil => intro a; simp [dedupKeys]
  | cons d ds ih =>
    intro a
    simp only [dedupKeys, List.mem_cons, List.mem_filter, bne_iff_ne, ih]
    constructor
    · rintro (rfl | ⟨ha, -⟩)
      · exact Or.inl rfl
      · exact Or.inr ha
    · rintro (rfl | ha)
      · exact Or.inl rfl
      · by_cases hd : a = d
        · exact Or.inl hd
        · exact Or.inr ⟨ha, by simpa using hd⟩

theorem nodup_dedupKeys : ∀ l : List Int, (dedupKeys l).Nodup := by
  intro l
  induction l with
  | nil => simp [dedupKeys]
  | cons d ds ih =>
    simp only [dedupKeys, List.nodup_cons]
    refine ⟨?_, ih.filter _⟩
    intro hmem
    have := (List.mem_filter.1 hmem).2
    simp at this

theorem sum_filter_not_filter {α : Type} (p : α → Bool) (f : α → Int) :
    ∀ l : List α,
      ((l.filter p).map f).sum + ((l.filter (fun x => !p x)).map f).sum = (l.map f).sum := by
  intro l
  induction l with
  | nil => simp
  | cons x xs ih =>
    cases hx : p x with
    | true =>
      simp only [List.filter_cons, hx, Bool.not_true]
      simp only [List.map_cons, List.sum_cons, if_true, if_false, Bool.false_eq_true,
        reduceIte]
      omega
    | false =>
      simp only [List.filter_cons, hx, Bool.not_false]
      simp only [List.map_cons, List.sum_cons, if_true, if_false, Bool.false_eq_true,
        reduceIte]
      omega

theorem groups_sum {α : Type} (key : α → Int) (f : α → Int) :
    ∀ (ds : List Int), ds.Nodup → ∀ (l : List α), (∀ x ∈ l, key x ∈ ds) →
      (ds.map (fun d => ((l.filter (fun x => key x == d)).map f).sum)).sum = (l.map f).sum := by
  intro ds
  induction ds with
  | nil =>
    intro hnd l hl
    have hle : l = [] := by
      cases l with
      | nil => rfl
      | cons x xs => exact absurd (hl x (List.mem_cons_self x xs)) (List.not_mem_nil _)
    rw [hle]
    simp
  | cons d ds ih =>
    intro hnd l hl
    simp only [List.map_cons, List.sum_cons]
    have hsplit := sum_filter_not_filter (fun x => key x == d) f l
    have hds : ∀ x ∈ l.filter (fun x => !(key x == d)), key x ∈ ds := by
      intro x hx
      have hm := List.mem_filter.1 hx
      rcases List.mem_cons.1 (hl x hm.1) with h | h
      · exfalso
        have h2 := hm.2
        simp [h] at h2
      · exact h
    have hrec := ih (List.nodup_cons.1 hnd).2 (l.filter (fun x => !(key x == d))) hds
    have hcong : ∀ d2 ∈ ds,
        (l.filter (fun x => !(key x == d))).filter (fun x => key x == d2)
          = l.filter (fun x => key x == d2) := by
      intro d2 hd2
      rw [List.filter_filter]
      refine List.filter_congr ?_
      intro x hx
      by_cases h : key x = d2
      · have hne : d2 ≠ d := by
          rintro rfl
          exact (List.nodup_cons.1 hnd).1 hd2
        simp [h, hne]
      · simp [h]
    have hmapeq :
        ds.map (fun d2 =>
            (((l.filter (fun x => !(key x == d))).filter (fun x => key x == d2)).map f).sum)
          = ds.map (fun d2 => ((l.filter (fun x => key x == d2)).map f).sum) := by
      refine List.map_congr_left ?_
      intro d2 hd2
      rw [hcong d2 hd2]
    rw [hmapeq] at hrec
    omega

theorem flatten_map_sum :
    ∀ M : List (List (Int × Int)),
      (M.flatten.map blockLen).sum = (M.map (fun m => (m.map blockLen).sum)).sum := by
  intro M
  induction M with
  | nil => simp
  | cons m ms ih =>
    simp only [List.flatten_cons, List.map_append, List.sum_append, ih, List.map_cons,
      List.sum_cons]

/-- The day-grouped merge preserves the total length of the intervals. -/
theorem mergeTaskSlots_sum (dayOf : Int → Int) (l : List (Int × Int)) :
    ((mergeTaskSlots dayOf l).map blockLen).sum = (l.map blockLen).sum := by
  unfold mergeTaskSlots
  rw [flatten_map_sum, List.map_map]
  have hcong :
      (dedupKeys (l.map (fun p => dayOf p.1))).map
          ((fun m => (m.map blockLen).sum) ∘ fun d =>
            dayMerge (l.filter (fun p => dayOf p.1 == d)))
        = (dedupKeys (l.map fun p => dayOf p.1)).map
            (fun d => ((l.filter (fun p => dayOf p.1 == d)).map blockLen).sum) := by
    refine List.map_congr_left ?_
    intro d hd
    simp only [Function.comp_apply]
    rw [dayMerge_sum]
  rw [hcong]
  refine groups_sum (fun p => dayOf p.1) blockLen _ (nodup_dedupKeys _) l ?_
  intro x hx
  exact (mem_dedupKeys _ _).2 (List.mem_map.2 ⟨x, hx, rfl⟩)

/-- The lengths of a task's solved intervals are exactly its takes. -/
theorem solvedIntervals_blockLen (a : Assignment) (ti : Nat) (r : RegTask) :
    ((solvedIntervals a ti r).map blockLen).sum = (r.splits.map (fun sp => sp.2)).sum := by
  unfold solvedIntervals
  rw [List.map_map]
  have h1 :
      (blockLen ∘ fun p : Nat × ((Int × Int) × Int) =>
          (a.splitPos ti p.1, a.splitPos ti p.1 + p.2.2))
        = ((fun sp : (Int × Int) × Int => sp.2) ∘ Prod.snd) := by
    funext p
    simp [blockLen]
  rw [h1, ← List.map_map, List.enum_map_snd]

/-! ### The split loop -/

theorem splitLoop_consumes_front :
    ∀ (slots : List (Int × Int)) (d : Int),
      ∃ k, (splitLoop d slots).map Prod.fst = slots.take k := by
  intro slots
  induction slots with
  | nil => intro d; exact ⟨0, by simp [splitLoop]⟩
  | cons se rest ih =>
    intro d
    obtain ⟨s, e⟩ := se
    by_cases hd : d ≤ 0
    · exact ⟨0, by simp [splitLoop, hd]⟩
    · obtain ⟨k, hk⟩ := ih (d - min d (e - s))
      refine ⟨k + 1, ?_⟩
      simp only [splitLoop, if_neg hd, List.map_cons, List.take_succ_cons, hk]

theorem splitLoop_sum :
    ∀ (slots : List (Int × Int)) (d : Int), 0 ≤ d → (∀ p ∈ slots, p.1 ≤ p.2) →
      d ≤ (slots.map (fun p => p.2 - p.1)).sum →
      ((splitLoop d slots).map (fun sp => sp.2)).sum = d := by
  intro slots
  induction slots with
  | nil =>
    intro d h0 hg hc
    simp only [List.map_nil, List.sum_nil] at hc
    simp only [splitLoop, List.map_nil, List.sum_nil]
    omega
  | cons se rest ih =>
    intro d h0 hg hc
    obtain ⟨s, e⟩ := se
    by_cases hd : d ≤ 0
    · simp only [splitLoop, if_pos hd, List.map_nil, List.sum_nil]
      omega
    · simp only [splitLoop, if_neg hd, List.map_cons, List.sum_cons]
      have hrest_good : ∀ p ∈ rest, p.1 ≤ p.2 := fun p hp => hg p (List.mem_cons_of_mem _ hp)
      have hrest_nonneg : 0 ≤ (rest.map (fun p => p.2 - p.1)).sum := by
        refine List.sum_nonneg ?_
        intro x hx
        obtain ⟨p, hp, rfl⟩ := List.mem_map.1 hx
        have := hrest_good p hp
        omega
      have hcap_rest : d - min d (e - s) ≤ (rest.map (fun p => p.2 - p.1)).sum := by
        simp only [List.map_cons, List.sum_cons] at hc
        omega
      rw [ih (d - min d (e - s)) (by omega) hrest_good hcap_rest]
      omega

theorem splitRemaining_spec :
    ∀ (slots : List (Int × Int)) (d : Int),
      splitRemaining d slots = d - ((splitLoop d slots).map (fun sp => sp.2)).sum := by
  intro slots
  induction slots with
  | nil => intro d; simp [splitRemaining, splitLoop]
  | cons se rest ih =>
    intro d
    obtain ⟨s, e⟩ := se
    by_cases hd : d ≤ 0
    · simp [splitRemaining, splitLoop, hd]
    · simp only [splitRemaining, splitLoop, if_neg hd, List.map_cons, List.sum_cons]
      rw [ih (d - min d (e - s))]
      omega

theorem splitLoop_take_bounds :
    ∀ (slots : List (Int × Int)), (∀ p ∈ slots, p.1 ≤ p.2) →
      ∀ (d : Int), ∀ sp ∈ splitLoop d slots, 0 ≤ sp.2 ∧ sp.2 ≤ sp.1.2 - sp.1.1 := by
  intro slots
  induction slots with
  | nil => intro hg d sp hsp; simp [splitLoop] at hsp
  | cons se rest ih =>
    intro hg d sp hsp
    obtain ⟨s, e⟩ := se
    by_cases hd : d ≤ 0
    · simp [splitLoop, hd] at hsp
    · simp only [splitLoop, if_neg hd] at hsp
      rcases List.mem_cons.1 hsp with h | h
      · rw [h]
        have := hg (s, e) (List.mem_cons_self _ _)
        constructor
        · simp only
          omega
        · simp only
          omega
      · exact ih (fun p hp => hg p (List.mem_cons_of_mem _ hp)) _ sp h

theorem splitLoop_take_pos :
    ∀ (slots : List (Int × Int)), (∀ p ∈ slots, p.1 < p.2) →
      ∀ (d : Int), ∀ sp ∈ splitLoop d slots, 0 < sp.2 := by
  intro slots
  induction slots with
  | nil => intro hg d sp hsp; simp [splitLoop] at hsp
  | cons se rest ih =>
    intro hg d sp hsp
    obtain ⟨s, e⟩ := se
    by_cases hd : d ≤ 0
    · simp [splitLoop, hd] at hsp
    · simp only [splitLoop, if_neg hd] at hsp
      rcases List.mem_cons.1 hsp with h | h
      · rw [h]
        have := hg (s, e) (List.mem_cons_self _ _)
        simp only
        omega
      · exact ih (fun p hp => hg p (List.mem_cons_of_mem _ hp)) _ sp h

theorem splitLoop_take_min :
    ∀ (slots : List (Int × Int)) (d : Int) (i : Nat) (sp : (Int × Int) × Int),
      (splitLoop d slots)[i]? = some sp →
      sp.2 = min (d - (((splitLoop d slots).take i).map (fun x => x.2)).sum)
        (sp.1.2 - sp.1.1) := by
  intro slots
  induction slots with
  | nil => intro d i sp h; simp [splitLoop] at h
  | cons se rest ih =>
    intro d i sp h
    obtain ⟨s, e⟩ := se
    by_cases hd : d ≤ 0
    · simp [splitLoop, hd] at h
    · have heq : splitLoop d ((s, e) :: rest)
          = ((s, e), min d (e - s)) :: splitLoop (d - min d (e - s)) rest := by
        simp [splitLoop, hd]
      rw [heq] at h
      rw [heq]
      cases i with
      | zero =>
        simp only [List.getElem?_cons_zero, Option.some_inj] at h
        rw [← h]
        simp only [List.take_zero, List.map_nil, List.sum_nil]
        omega
      | succ j =>
        simp only [List.getElem?_cons_succ] at h
        have hrec := ih (d - min d (e - s)) j sp h
        simp only [List.take_succ_cons, List.map_cons, List.sum_cons]
        rw [hrec]
        omega

/-- **C3**: for a required duration `d = duration*60` that the candidate slots
cumulatively cover, the splitter consumes slots strictly first-fit in order:
the anchors form a prefix of the candidate list, every take equals
`min(remaining, slot.end - slot.start)` and fits inside its anchor slot, the
takes sum to exactly `d` (so the loop stops with remaining 0 and the
insufficient-capacity warning does not fire), and consequently — whatever
positions the solver assigns — the task's reconstructed merged blocks also sum
to exactly `d` seconds. -/
theorem C3_splitter_first_fit_exact_coverage (d : Int) (slots : List (Int × Int))
    (hd : 0 ≤ d) (hgood : ∀ p ∈ slots, p.1 ≤ p.2)
    (hcap : d ≤ (slots.map (fun p => p.2 - p.1)).sum) :
    (∃ k, (splitLoop d slots).map Prod.fst = slots.take k) ∧
    ((splitLoop d slots).map (fun sp => sp.2)).sum = d ∧
    splitRemaining d slots = 0 ∧
    (∀ sp ∈ splitLoop d slots, 0 ≤ sp.2 ∧ sp.2 ≤ sp.1.2 - sp.1.1) ∧
    (∀ (i : Nat) (sp : (Int × Int) × Int), (splitLoop d slots)[i]? = some sp →
      sp.2 = min (d - (((splitLoop d slots).take i).map (fun x => x.2)).sum)
        (sp.1.2 - sp.1.1)) ∧
    (∀ (dayOf : Int → Int) (a : Assignment) (ti : Nat) (r : RegTask),
      r.splits = splitLoop d slots →
      ((mergeTaskSlots dayOf (solvedIntervals a ti r)).map blockLen).sum = d) := by
  have hsum := splitLoop_sum slots d hd hgood hcap
  refine ⟨splitLoop_consumes_front slots d, hsum, ?_, splitLoop_take_bounds slots hgood d,
    fun i sp h => splitLoop_take_min slots d i sp h, ?_⟩
  · rw [splitRemaining_spec, hsum]
    omega
  · intro dayOf a ti r hr
    rw [mergeTaskSlots_sum, solvedIntervals_blockLen, hr, hsum]

/-- **C3** witness: duration 600 seconds over two 300-second candidate slots. -/
theorem C3_witness :
    ((0 : Int) ≤ 600 ∧
      (600 : Int) ≤ ([((0 : Int), (300 : Int)), (300, 600)].map (fun p => p.2 - p.1)).sum) ∧
    ((splitLoop 600 [((0 : Int), (300 : Int)), (300, 600)]).map (fun sp => sp.2)).sum = 600 ∧
    splitRemaining 600 [((0 : Int), (300 : Int)), (300, 600)] = 0 := by
  refine ⟨⟨by decide, by decide⟩, ?_, ?_⟩
  · exact (C3_splitter_first_fit_exact_coverage 600 [(0, 300), (300, 600)]
      (by decide) (by decide) (by decide)).2.1
  · exact (C3_splitter_first_fit_exact_coverage 600 [(0, 300), (300, 600)]
      (by decide) (by decide) (by decide)).2.2.1

/-! ### Coverage of merged blocks by the original intervals -/

/-- Every instant covered by a merged block was covered by an input interval:
the merge loop only fuses blocks that connect exactly end-to-start. -/
theorem mergeRun_cover :
    ∀ (t : List (Int × Int)) (h : Int × Int), ∀ p ∈ mergeRun h t, ∀ τ : Int,
      p.1 ≤ τ → τ < p.2 → ∃ q ∈ h :: t, q.1 ≤ τ ∧ τ < q.2 := by
  intro t
  induction t with
  | nil =>
    intro h p hp τ h1 h2
    simp only [mergeRun, List.mem_singleton] at hp
    exact ⟨h, List.mem_cons_self _ _, hp ▸ h1, hp ▸ h2⟩
  | cons x xs ih =>
    intro h p hp τ h1 h2
    simp only [mergeRun] at hp
    by_cases hx : x.1 = h.2
    · rw [if_pos hx] at hp
      obtain ⟨q, hq, hqc⟩ := ih (h.1, x.2) p hp τ h1 h2
      rcases List.mem_cons.1 hq with rfl | hq2
      · by_cases hτ : τ < h.2
        · exact ⟨h, List.mem_cons_self _ _, hqc.1, hτ⟩
        · refine ⟨x, List.mem_cons_of_mem _ (List.mem_cons_self _ _), ?_, hqc.2⟩
          omega
      · exact ⟨q, List.mem_cons_of_mem _ (List.mem_cons_of_mem _ hq2), hqc⟩
    · rw [if_neg hx] at hp
      rcases List.mem_cons.1 hp with rfl | hp2
      · exact ⟨p, List.mem_cons_self _ _, h1, h2⟩
      · obtain ⟨q, hq, hqc⟩ := ih x p hp2 τ h1 h2
        exact ⟨q, List.mem_cons_of_mem _ hq, hqc⟩

theorem dayMerge_cover {g : List (Int × Int)} :
    ∀ p ∈ dayMerge g, ∀ τ : Int, p.1 ≤ τ → τ < p.2 → ∃ q ∈ g, q.1 ≤ τ ∧ τ < q.2 := by
  intro p hp τ h1 h2
  unfold dayMerge at hp
  cases hs : List.insertionSort slotLe g with
  | nil => rw [hs] at hp; simp at hp
  | cons h t =>
    rw [hs] at hp
    obtain ⟨q, hq, hqc⟩ := mergeRun_cover t h p hp τ h1 h2
    rw [← hs] at hq
    exact ⟨q, (List.mem_insertionSort slotLe).1 hq, hqc⟩

theorem mergeTaskSlots_cover {dayOf : Int → Int} {l : List (Int × Int)} :
    ∀ b ∈ mergeTaskSlots dayOf l, ∀ τ : Int, b.1 ≤ τ → τ < b.2 →
      ∃ q ∈ l, q.1 ≤ τ ∧ τ < q.2 := by
  intro b hb τ h1 h2
  unfold mergeTaskSlots at hb
  obtain ⟨m, hm, hbm⟩ := List.mem_flatten.1 hb
  obtain ⟨d, hd, rfl⟩ := List.mem_map.1 hm
  obtain ⟨q, hq, hqc⟩ := dayMerge_cover b hbm τ h1 h2
  exact ⟨q, List.mem_of_mem_filter hq, hqc⟩

/-! ### Membership shapes of the reconstruction -/

theorem mem_combine {dayOf : Int → Int} {ts : List (String × List (Int × Int))}
    {p : String × List (Int × Int)} :
    p ∈ combine_consecutive_slots dayOf ts ↔
      ∃ t ∈ ts, t.2 ≠ [] ∧ p = (t.1, mergeTaskSlots dayOf t.2) := by
  unfold combine_consecutive_slots
  constructor
  · intro hp
    obtain ⟨t, ht, rfl⟩ := List.mem_map.1 hp
    have hf := List.mem_filter.1 ht
    refine ⟨t, hf.1, ?_, rfl⟩
    have h2 := hf.2
    intro he
    rw [he] at h2
    simp at h2
  · rintro ⟨t, ht, hne, rfl⟩
    refine List.mem_map.2 ⟨t, List.mem_filter.2 ⟨ht, ?_⟩, rfl⟩
    cases h : t.2 with
    | nil => exact absurd h hne
    | cons x xs => rfl

theorem mem_taskScheduleList {a : Assignment} {regs : List RegTask}
    {t : String × List (Int × Int)} :
    t ∈ taskScheduleList a regs ↔
      ∃ (i : Nat) (r : RegTask), regs[i]? = some r ∧
        t = (r.name, solvedIntervals a i r) := by
  unfold taskScheduleList
  constructor
  · intro ht
    obtain ⟨pr, hpr, rfl⟩ := List.mem_map.1 ht
    exact ⟨pr.1, pr.2, List.mem_enum_iff_getElem?.1 hpr, rfl⟩
  · rintro ⟨i, r, hi, rfl⟩
    exact List.mem_map.2 ⟨(i, r), List.mem_enum_iff_getElem?.2 hi, rfl⟩

theorem mem_solvedIntervals {a : Assignment} {ti : Nat} {r : RegTask} {q : Int × Int} :
    q ∈ solvedIntervals a ti r ↔
      ∃ (si : Nat) (sp : (Int × Int) × Int), r.splits[si]? = some sp ∧
        q = (a.splitPos ti si, a.splitPos ti si + sp.2) := by
  unfold solvedIntervals
  constructor
  · intro hq
    obtain ⟨pr, hpr, rfl⟩ := List.mem_map.1 hq
    exact ⟨pr.1, pr.2, List.mem_enum_iff_getElem?.1 hpr, rfl⟩
  · rintro ⟨si, sp, hsi, rfl⟩
    exact List.mem_map.2 ⟨(si, sp), List.mem_enum_iff_getElem?.2 hsi, rfl⟩

/-- The Nat-indexed reading of the global NoOverlap constraint. -/
theorem noOverlapSat_spec {a : Assignment} {regs : List RegTask}
    (h : NoOverlapSat a regs) {i j si sj : Nat} {ri rj : RegTask}
    {spi spj : (Int × Int) × Int}
    (hi : regs[i]? = some ri) (hj : regs[j]? = some rj)
    (hsi : ri.splits[si]? = some spi) (hsj : rj.splits[sj]? = some spj)
    (hne : (i, si) ≠ (j, sj)) :
    spi.2 = 0 ∨ spj.2 = 0 ∨
    a.splitPos i si + spi.2 ≤ a.splitPos j sj ∨
    a.splitPos j sj + spj.2 ≤ a.splitPos i si := by
  have hilt : i < regs.length := (List.getElem?_eq_some.1 hi).1
  have hjlt : j < regs.length := (List.getElem?_eq_some.1 hj).1
  have hig : regs.get ⟨i, hilt⟩ = ri := by
    have := (List.getElem?_eq_some.1 hi).2
    simpa [List.get_eq_getElem] using this
  have hjg : regs.get ⟨j, hjlt⟩ = rj := by
    have := (List.getElem?_eq_some.1 hj).2
    simpa [List.get_eq_getElem] using this
  have hsilt : si < (regs.get ⟨i, hilt⟩).splits.length := by
    rw [hig]
    exact (List.getElem?_eq_some.1 hsi).1
  have hsjlt : sj < (regs.get ⟨j, hjlt⟩).splits.length := by
    rw [hjg]
    exact (List.getElem?_eq_some.1 hsj).1
  have hsig : (regs.get ⟨i, hilt⟩).splits.get ⟨si, hsilt⟩ = spi := by
    have h1 : ((regs.get ⟨i, hilt⟩).splits)[si]? = some spi := by rw [hig]; exact hsi
    have h2 := (List.getElem?_eq_some.1 h1).2
    simpa [List.get_eq_getElem] using h2
  have hsjg : (regs.get ⟨j, hjlt⟩).splits.get ⟨sj, hsjlt⟩ = spj := by
    have h1 : ((regs.get ⟨j, hjlt⟩).splits)[sj]? = some spj := by rw [hjg]; exact hsj
    have h2 := (List.getElem?_eq_some.1 h1).2
    simpa [List.get_eq_getElem] using h2
  have hmain := h ⟨i, hilt⟩ ⟨j, hjlt⟩ ⟨si, hsilt⟩ ⟨sj, hsjlt⟩ (by simpa using hne)
  rw [hsig, hsjg] at hmain
  exact hmain

/-- Every registered task's splits arise from the split loop over its own
candidate slots. -/
theorem buildModel_splits (tasks : List Task) (all : List (Int × Int × String)) :
    ∀ r ∈ (buildModel tasks all).1, ∃ t ∈ tasks,
      r.splits = splitLoop (t.duration * 60) (validSlots t all) := by
  induction tasks with
  | nil => simp [buildModel]
  | cons t ts ih =>
    intro r hr
    simp only [buildModel] at hr
    rcases hv : validSlots t all with - | ⟨v, vs⟩
    · rw [hv] at hr
      obtain ⟨t2, ht2, he⟩ := ih r hr
      exact ⟨t2, List.mem_cons_of_mem _ ht2, he⟩
    · rw [hv] at hr
      simp only at hr
      rcases List.mem_cons.1 hr with h | h
      · refine ⟨t, List.mem_cons_self _ _, ?_⟩
        rw [h, hv]
      · obtain ⟨t2, ht2, he⟩ := ih r h
        exact ⟨t2, List.mem_cons_of_mem _ ht2, he⟩

theorem validSlots_pos {t : Task} {all : List (Int × Int × String)}
    (h : ∀ p ∈ all, p.1 < p.2.1) : ∀ q ∈ validSlots t all, q.1 < q.2 := by
  intro q hq
  unfold validSlots at hq
  obtain ⟨s, hs, rfl⟩ := List.mem_map.1 hq
  exact h s (List.mem_of_mem_filter hs)

/-- **C2**: for every satisfying solver assignment (an OPTIMAL or FEASIBLE
outcome), any two ScheduledBlocks of the reconstructed schedule belonging to
entries with different task names have non-intersecting time ranges: every
instant of a merged block is covered by one of the task's solved
SplitIntervals, and the global NoOverlap constraint separates the intervals of
distinct tasks — regardless of category. -/
theorem C2_reconstructed_blocks_no_cross_task_overlap (dayOf : Int → Int)
    (regs : List RegTask) (a : Assignment) (hsat : Sat a regs) :
    ∀ p ∈ reconstructedSchedule dayOf a regs, ∀ q ∈ reconstructedSchedule dayOf a regs,
      p.1 ≠ q.1 → ∀ b1 ∈ p.2, ∀ b2 ∈ q.2, ¬ rangesIntersect b1 b2 := by
  intro p hp q hq hne b1 hb1 b2 hb2 hint
  obtain ⟨τ, ⟨hτ11, hτ12⟩, hτ21, hτ22⟩ := hint
  obtain ⟨t1, ht1, -, hpe⟩ := mem_combine.1 hp
  obtain ⟨i, ri, hi, ht1e⟩ := mem_taskScheduleList.1 ht1
  obtain ⟨t2, ht2, -, hqe⟩ := mem_combine.1 hq
  obtain ⟨j, rj, hj, ht2e⟩ := mem_taskScheduleList.1 ht2
  have hb1m : b1 ∈ mergeTaskSlots dayOf (solvedIntervals a i ri) := by
    rw [hpe, ht1e] at hb1
    exact hb1
  have hb2m : b2 ∈ mergeTaskSlots dayOf (solvedIntervals a j rj) := by
    rw [hqe, ht2e] at hb2
    exact hb2
  obtain ⟨q1, hq1, hq1c⟩ := mergeTaskSlots_cover b1 hb1m τ hτ11 hτ12
  obtain ⟨si, spi, hspi, hq1e⟩ := mem_solvedIntervals.1 hq1
  obtain ⟨q2, hq2, hq2c⟩ := mergeTaskSlots_cover b2 hb2m τ hτ21 hτ22
  obtain ⟨sj, spj, hspj, hq2e⟩ := mem_solvedIntervals.1 hq2
  have hij : i ≠ j := by
    rintro rfl
    have hrr : ri = rj := by
      rw [hi] at hj
      exact Option.some.inj hj
    apply hne
    rw [hpe, ht1e, hqe, ht2e, hrr]
  have hdisj := noOverlapSat_spec hsat.2 hi hj hspi hspj (by simp [hij])
  rw [hq1e] at hq1c
  rw [hq2e] at hq2c
  simp only at hq1c hq2c
  rcases hdisj with h0 | h0 | h0 | h0 <;> omega

/-- **C10**: the single NoOverlap constraint ranges over the flat list of all
registered tasks' SplitIntervals, so in any satisfying assignment two distinct
split intervals never overlap even when they belong to the same task; with
genuine positive-length slots every take is positive, so the zero-size escape
of the constraint never applies. -/
theorem C10_no_overlap_includes_same_task_pairs (tasks : List Task)
    (all : List (Int × Int × String)) (hpos : ∀ p ∈ all, p.1 < p.2.1)
    (a : Assignment) (hsat : Sat a (buildModel tasks all).1) :
    ∀ (i j si sj : Nat) (ri rj : RegTask) (spi spj : (Int × Int) × Int),
      (buildModel tasks all).1[i]? = some ri →
      (buildModel tasks all).1[j]? = some rj →
      ri.splits[si]? = some spi → rj.splits[sj]? = some spj →
      (i, si) ≠ (j, sj) →
      a.splitPos i si + spi.2 ≤ a.splitPos j sj ∨
      a.splitPos j sj + spj.2 ≤ a.splitPos i si := by
  intro i j si sj ri rj spi spj hi hj hsi hsj hne
  have hdisj := noOverlapSat_spec hsat.2 hi hj hsi hsj hne
  obtain ⟨t1, -, hspl1⟩ :=
    buildModel_splits tasks all ri (List.getElem?_mem hi)
  obtain ⟨t2, -, hspl2⟩ :=
    buildModel_splits tasks all rj (List.getElem?_mem hj)
  have hp1 : 0 < spi.2 := by
    refine splitLoop_take_pos (validSlots t1 all) (validSlots_pos hpos)
      (t1.duration * 60) spi ?_
    rw [← hspl1]
    exact List.getElem?_mem hsi
  have hp2 : 0 < spj.2 := by
    refine splitLoop_take_pos (validSlots t2 all) (validSlots_pos hpos)
      (t2.duration * 60) spj ?_
    rw [← hspl2]
    exact List.getElem?_mem hsj
  rcases hdisj with h0 | h0 | h0 | h0
  · omega
  · omega
  · exact Or.inl h0
  · exact Or.inr h0

/-! ### Idempotence of the day merge -/

theorem slotLe_extend {h x y : Int × Int} (h1 : slotLe h x) (h2 : slotLe x y) :
    slotLe (h.1, x.2) y := by
  unfold slotLe at h1 h2 ⊢
  show h.1 < y.1 ∨ (h.1 = y.1 ∧ x.2 ≤ y.2)
  omega

/-- The merge loop's output starts with the first input's start, and for
nonnegative-length inputs its first block's end is at least the first input's
end (extensions only connect end-to-start, so ends never shrink). -/
theorem mergeRun_head :
    ∀ (xs : List (Int × Int)) (x : Int × Int), (∀ p ∈ x :: xs, p.1 ≤ p.2) →
      ∃ e t2, mergeRun x xs = (x.1, e) :: t2 ∧ x.2 ≤ e := by
  intro xs
  induction xs with
  | nil => intro x hg; exact ⟨x.2, [], rfl, le_refl _⟩
  | cons y ys ih =>
    intro x hg
    simp only [mergeRun]
    by_cases hy : y.1 = x.2
    · rw [if_pos hy]
      have hgg : ∀ p ∈ (x.1, y.2) :: ys, p.1 ≤ p.2 := by
        intro p hp
        rcases List.mem_cons.1 hp with rfl | hp2
        · have h1 := hg x (List.mem_cons_self _ _)
          have h2 := hg y (List.mem_cons_of_mem _ (List.mem_cons_self _ _))
          simp only
          omega
        · exact hg p (List.mem_cons_of_mem _ (List.mem_cons_of_mem _ hp2))
      obtain ⟨e, t2, hrun, he⟩ := ih (x.1, y.2) hgg
      refine ⟨e, t2, hrun, ?_⟩
      have hyg := hg y (List.mem_cons_of_mem _ (List.mem_cons_self _ _))
      simp only at he
      omega
    · rw [if_neg hy]
      exact ⟨x.2, mergeRun y ys, rfl, le_refl _⟩

/-- On sorted input with nonnegative lengths, the merge loop's output is
sorted and has nonnegative lengths. -/
theorem mergeRun_sorted_good :
    ∀ (t : List (Int × Int)) (h : Int × Int), List.Chain' slotLe (h :: t) →
      (∀ p ∈ h :: t, p.1 ≤ p.2) →
      List.Chain' slotLe (mergeRun h t) ∧ ∀ p ∈ mergeRun h t, p.1 ≤ p.2 := by
  intro t
  induction t with
  | nil =>
    intro h hc hg
    refine ⟨List.chain'_singleton _, ?_⟩
    intro p hp
    simp only [mergeRun, List.mem_singleton] at hp
    rw [hp]
    exact hg h (List.mem_cons_self _ _)
  | cons x xs ih =>
    intro h hc hg
    have hhx : slotLe h x := (List.chain'_cons.1 hc).1
    have hcx : List.Chain' slotLe (x :: xs) := (List.chain'_cons.1 hc).2
    simp only [mergeRun]
    by_cases hx : x.1 = h.2
    · rw [if_pos hx]
      refine ih (h.1, x.2) ?_ ?_
      · cases xs with
        | nil => exact List.chain'_singleton _
        | cons y ys =>
          refine List.chain'_cons.2 ⟨?_, (List.chain'_cons.1 hcx).2⟩
          exact slotLe_extend hhx (List.chain'_cons.1 hcx).1
      · intro p hp
        rcases List.mem_cons.1 hp with rfl | hp2
        · have h1 := hg h (List.mem_cons_self _ _)
          have h2 := hg x (List.mem_cons_of_mem _ (List.mem_cons_self _ _))
          simp only
          omega
        · exact hg p (List.mem_cons_of_mem _ (List.mem_cons_of_mem _ hp2))
    · rw [if_neg hx]
      obtain ⟨hchain2, hgood2⟩ :=
        ih x hcx (fun p hp => hg p (List.mem_cons_of_mem _ hp))
      constructor
      · refine List.chain'_cons'.2 ⟨?_, hchain2⟩
        intro b hb
        obtain ⟨e, t2, hrun, hxe⟩ :=
          mergeRun_head xs x (fun p hp => hg p (List.mem_cons_of_mem _ hp))
        rw [hrun] at hb
        simp only [List.head?_cons, Option.mem_def, Option.some_inj] at hb
        rw [← hb]
        rcases hhx with hlt | ⟨heq, hle⟩
        · exact Or.inl hlt
        · exact Or.inr ⟨heq, le_trans hle hxe⟩
      · intro p hp
        rcases List.mem_cons.1 hp with rfl | hp2
        · exact hg p (List.mem_cons_self _ _)
        · exact hgood2 p hp2

/-- Consecutive output blocks of the merge loop never connect end-to-start:
whenever a block is emitted, the next block starts at the first component of
an input that failed the merge test. -/
theorem mergeRun_noMerge :
    ∀ (t : List (Int × Int)) (h : Int × Int), (∀ p ∈ h :: t, p.1 ≤ p.2) →
      List.Chain' (fun a b : Int × Int => b.1 ≠ a.2) (mergeRun h t) := by
  intro t
  induction t with
  | nil => intro h hg; exact List.chain'_singleton _
  | cons x xs ih =>
    intro h hg
    simp only [mergeRun]
    by_cases hx : x.1 = h.2
    · rw [if_pos hx]
      refine ih (h.1, x.2) ?_
      intro p hp
      rcases List.mem_cons.1 hp with rfl | hp2
      · have h1 := hg h (List.mem_cons_self _ _)
        have h2 := hg x (List.mem_cons_of_mem _ (List.mem_cons_self _ _))
        simp only
        omega
      · exact hg p (List.mem_cons_of_mem _ (List.mem_cons_of_mem _ hp2))
    · rw [if_neg hx]
      refine List.chain'_cons'.2
        ⟨?_, ih x (fun p hp => hg p (List.mem_cons_of_mem _ hp))⟩
      intro b hb
      obtain ⟨e, t2, hrun, -⟩ :=
        mergeRun_head xs x (fun p hp => hg p (List.mem_cons_of_mem _ hp))
      rw [hrun] at hb
      simp only [List.head?_cons, Option.mem_def, Option.some_inj] at hb
      rw [← hb]
      exact hx

/-- A list whose consecutive blocks never connect end-to-start is a fixed
point of the merge loop. -/
theorem mergeRun_fixed :
    ∀ (t : List (Int × Int)) (h : Int × Int),
      List.Chain' (fun a b : Int × Int => b.1 ≠ a.2) (h :: t) → mergeRun h t = h :: t := by
  intro t
  induction t with
  | nil => intro h hc; rfl
  | cons x xs ih =>
    intro h hc
    have hx : x.1 ≠ h.2 := (List.chain'_cons.1 hc).1
    simp only [mergeRun, if_neg hx]
    rw [ih x (List.chain'_cons.1 hc).2]

/-- The sort-then-merge of one day's intervals is idempotent on
nonnegative-length intervals. -/
theorem dayMerge_idem (g : List (Int × Int)) (hg : ∀ p ∈ g, p.1 ≤ p.2) :
    dayMerge (dayMerge g) = dayMerge g := by
  cases hs : List.insertionSort slotLe g with
  | nil =>
    have hperm := List.perm_insertionSort slotLe g
    rw [hs] at hperm
    have hgnil : g = [] := hperm.symm.eq_nil
    rw [hgnil]
    rfl
  | cons h t =>
    have hSg : dayMerge g = mergeRun h t := by
      unfold dayMerge
      rw [hs]
    have hsorted : List.Chain' slotLe (h :: t) := by
      have hps := List.sorted_insertionSort slotLe g
      rw [hs] at hps
      exact List.chain'_iff_pairwise.2 hps
    have hgood : ∀ p ∈ h :: t, p.1 ≤ p.2 := by
      intro p hp
      refine hg p ?_
      rw [← hs] at hp
      exact (List.mem_insertionSort slotLe).1 hp
    obtain ⟨hchain, -⟩ := mergeRun_sorted_good t h hsorted hgood
    have hnomerge := mergeRun_noMerge t h hgood
    obtain ⟨e, t2, hrun, -⟩ := mergeRun_head t h hgood
    rw [hSg]
    have hfix : List.insertionSort slotLe (mergeRun h t) = mergeRun h t :=
      List.Sorted.insertionSort_eq (List.chain'_iff_pairwise.1 hchain)
    unfold dayMerge
    rw [hfix, hrun]
    show mergeRun (h.1, e) t2 = (h.1, e) :: t2
    exact mergeRun_fixed t2 (h.1, e) (hrun ▸ hnomerge)

theorem mergeRun_ne_nil : ∀ (t : List (Int × Int)) (h : Int × Int), mergeRun h t ≠ [] := by
  intro t
  induction t with
  | nil => intro h; simp [mergeRun]
  | cons x xs ih =>
    intro h
    simp only [mergeRun]
    by_cases hx : x.1 = h.2
    · rw [if_pos hx]
      exact ih (h.1, x.2)
    · rw [if_neg hx]
      simp

theorem mergeRun_fst_mem :
    ∀ (t : List (Int × Int)) (h : Int × Int), ∀ p ∈ mergeRun h t, ∃ q ∈ h :: t, p.1 = q.1 := by
  intro t
  induction t with
  | nil =>
    intro h p hp
    simp only [mergeRun, List.mem_singleton] at hp
    exact ⟨h, List.mem_cons_self _ _, by rw [hp]⟩
  | cons x xs ih =>
    intro h p hp
    simp only [mergeRun] at hp
    by_cases hx : x.1 = h.2
    · rw [if_pos hx] at hp
      obtain ⟨q, hq, he⟩ := ih (h.1, x.2) p hp
      rcases List.mem_cons.1 hq with rfl | hq2
      · exact ⟨h, List.mem_cons_self _ _, he⟩
      · exact ⟨q, List.mem_cons_of_mem _ (List.mem_cons_of_mem _ hq2), he⟩
    · rw [if_neg hx] at hp
      rcases List.mem_cons.1 hp with rfl | hp2
      · exact ⟨p, List.mem_cons_self _ _, rfl⟩
      · obtain ⟨q, hq, he⟩ := ih x p hp2
        exact ⟨q, List.mem_cons_of_mem _ hq, he⟩

theorem dayMerge_fst_mem {g : List (Int × Int)} :
    ∀ p ∈ dayMerge g, ∃ q ∈ g, p.1 = q.1 := by
  intro p hp
  unfold dayMerge at hp
  cases hs : List.insertionSort slotLe g with
  | nil => rw [hs] at hp; simp at hp
  | cons h t =>
    rw [hs] at hp
    obtain ⟨q, hq, he⟩ := mergeRun_fst_mem t h p hp
    rw [← hs] at hq
    exact ⟨q, (List.mem_insertionSort slotLe).1 hq, he⟩

theorem dayMerge_ne_nil {g : List (Int × Int)} (h : g ≠ []) : dayMerge g ≠ [] := by
  unfold dayMerge
  cases hs : List.insertionSort slotLe g with
  | nil =>
    exfalso
    have hperm := List.perm_insertionSort slotLe g
    rw [hs] at hperm
    exact h hperm.symm.eq_nil
  | cons hh t => exact mergeRun_ne_nil t hh

theorem dedupKeys_const_append (d : Int) :
    ∀ (l1 l2 : List Int), (∀ x ∈ l1, x = d) → l1 ≠ [] →
      dedupKeys (l1 ++ l2) = d :: (dedupKeys l2).filter (fun x => x != d) := by
  intro l1
  induction l1 with
  | nil => intro l2 hc hne; exact absurd rfl hne
  | cons x xs ih =>
    intro l2 hc hne
    have hx : x = d := hc x (List.mem_cons_self _ _)
    subst hx
    cases xs with
    | nil => rfl
    | cons y ys =>
      have hih := ih l2 (fun z hz => hc z (List.mem_cons_of_mem _ hz)) (by simp)
      show x :: (dedupKeys ((y :: ys) ++ l2)).filter (fun z => z != x) = _
      rw [hih]
      simp only [List.filter_cons, bne_self_eq_false, Bool.false_eq_true, if_false]
      rw [List.filter_filter]
      simp only [Bool.and_self]

theorem grouped_flatten_keys (dayOf : Int → Int) :
    ∀ (ds : List Int) (segf : Int → List (Int × Int)), ds.Nodup →
      (∀ d ∈ ds, segf d ≠ []) → (∀ d ∈ ds, ∀ p ∈ segf d, dayOf p.1 = d) →
      dedupKeys (((ds.map segf).flatten).map (fun p => dayOf p.1)) = ds := by
  intro ds
  induction ds with
  | nil => intro segf hnd hne hc; rfl
  | cons d ds ih =>
    intro segf hnd hne hc
    simp only [List.map_cons, List.flatten_cons, List.map_append]
    have hconst : ∀ x ∈ (segf d).map (fun p => dayOf p.1), x = d := by
      intro x hx
      obtain ⟨p, hp, rfl⟩ := List.mem_map.1 hx
      exact hc d (List.mem_cons_self _ _) p hp
    have hnonnil : (segf d).map (fun p => dayOf p.1) ≠ [] := by
      cases hseg : segf d with
      | nil => exact absurd hseg (hne d (List.mem_cons_self _ _))
      | cons a as => simp
    rw [dedupKeys_const_append d _ _ hconst hnonnil]
    rw [ih segf (List.nodup_cons.1 hnd).2
      (fun d2 h2 => hne d2 (List.mem_cons_of_mem _ h2))
      (fun d2 h2 => hc d2 (List.mem_cons_of_mem _ h2))]
    have hfe : ds.filter (fun x => x != d) = ds := by
      refine List.filter_eq_self.2 ?_
      intro x hx
      have : x ≠ d := by
        rintro rfl
        exact (List.nodup_cons.1 hnd).1 hx
      simpa using this
    rw [hfe]

theorem grouped_flatten_filter (dayOf : Int → Int) :
    ∀ (ds : List Int) (segf : Int → List (Int × Int)), ds.Nodup →
      (∀ d2 ∈ ds, ∀ p ∈ segf d2, dayOf p.1 = d2) →
      ∀ d ∈ ds, ((ds.map segf).flatten).filter (fun p => dayOf p.1 == d) = segf d := by
  intro ds
  induction ds with
  | nil => intro segf hnd hc d hd; simp at hd
  | cons d0 ds ih =>
    intro segf hnd hc d hd
    simp only [List.map_cons, List.flatten_cons]
    rw [List.filter_append]
    rcases List.mem_cons.1 hd with rfl | hd2
    · have h1 : (segf d).filter (fun p => dayOf p.1 == d) = segf d := by
        refine List.filter_eq_self.2 ?_
        intro p hp
        simp [hc d (List.mem_cons_self _ _) p hp]
      have h2 : ((ds.map segf).flatten).filter (fun p => dayOf p.1 == d) = [] := by
        refine List.filter_eq_nil_iff.2 ?_
        intro p hp
        obtain ⟨m, hm, hpm⟩ := List.mem_flatten.1 hp
        obtain ⟨d2, hdm, rfl⟩ := List.mem_map.1 hm
        have he := hc d2 (List.mem_cons_of_mem _ hdm) p hpm
        have hne2 : d2 ≠ d := by
          rintro rfl
          exact (List.nodup_cons.1 hnd).1 hdm
        simp [he, hne2]
      rw [h1, h2, List.append_nil]
    · have h1 : (segf d0).filter (fun p => dayOf p.1 == d) = [] := by
        refine List.filter_eq_nil_iff.2 ?_
        intro p hp
        have he := hc d0 (List.mem_cons_self _ _) p hp
        have hne2 : d0 ≠ d := by
          rintro rfl
          exact (List.nodup_cons.1 hnd).1 hd2
        simp [he, hne2]
      rw [h1, List.nil_append]
      exact ih segf (List.nodup_cons.1 hnd).2
        (fun d2 h2 => hc d2 (List.mem_cons_of_mem _ h2)) d hd2

theorem mergeTaskSlots_ne_nil (dayOf : Int → Int) {l : List (Int × Int)} (h : l ≠ []) :
    mergeTaskSlots dayOf l ≠ [] := by
  cases hl : l with
  | nil => exact absurd hl h
  | cons p rest =>
    subst hl
    intro hflat
    unfold mergeTaskSlots at hflat
    rw [List.flatten_eq_nil_iff] at hflat
    have hd0 : dayOf p.1 ∈ dedupKeys (((p :: rest)).map (fun q => dayOf q.1)) :=
      (mem_dedupKeys _ _).2 (List.mem_map.2 ⟨p, List.mem_cons_self _ _, rfl⟩)
    have hseg :=
      hflat (dayMerge ((p :: rest).filter (fun q => dayOf q.1 == dayOf p.1)))
        (List.mem_map.2 ⟨dayOf p.1, hd0, rfl⟩)
    have hpf : p ∈ (p :: rest).filter (fun q => dayOf q.1 == dayOf p.1) :=
      List.mem_filter.2 ⟨List.mem_cons_self _ _, by simp⟩
    refine dayMerge_ne_nil ?_ hseg
    intro h0
    rw [h0] at hpf
    simp at hpf

/-- The day-grouped merge of one task's intervals is idempotent on
nonnegative-length intervals. -/
theorem mergeTaskSlots_idem (dayOf : Int → Int) (l : List (Int × Int))
    (hg : ∀ p ∈ l, p.1 ≤ p.2) :
    mergeTaskSlots dayOf (mergeTaskSlots dayOf l) = mergeTaskSlots dayOf l := by
  have hnd := nodup_dedupKeys (l.map (fun p => dayOf p.1))
  have hne : ∀ d ∈ dedupKeys (l.map (fun p => dayOf p.1)),
      dayMerge (l.filter (fun p => dayOf p.1 == d)) ≠ [] := by
    intro d hd
    obtain ⟨x, hx, hxd⟩ : ∃ x ∈ l, dayOf x.1 = d := by
      obtain ⟨x, hx, he⟩ := List.mem_map.1 ((mem_dedupKeys _ _).1 hd)
      exact ⟨x, hx, he⟩
    have hxf : x ∈ l.filter (fun p => dayOf p.1 == d) :=
      List.mem_filter.2 ⟨hx, by simp [hxd]⟩
    refine dayMerge_ne_nil ?_
    intro h0
    rw [h0] at hxf
    simp at hxf
  have hconst : ∀ d ∈ dedupKeys (l.map (fun p => dayOf p.1)),
      ∀ p ∈ dayMerge (l.filter (fun q => dayOf q.1 == d)), dayOf p.1 = d := by
    intro d hd p hp
    obtain ⟨q, hq, he⟩ := dayMerge_fst_mem p hp
    have hq2 := (List.mem_filter.1 hq).2
    rw [he]
    exact beq_iff_eq.1 hq2
  have hkeys := grouped_flatten_keys dayOf (dedupKeys (l.map (fun p => dayOf p.1)))
    (fun d => dayMerge (l.filter (fun q => dayOf q.1 == d))) hnd hne hconst
  have hfilt := grouped_flatten_filter dayOf (dedupKeys (l.map (fun p => dayOf p.1)))
    (fun d => dayMerge (l.filter (fun q => dayOf q.1 == d))) hnd hconst
  show ((dedupKeys ((mergeTaskSlots dayOf l).map (fun p => dayOf p.1))).map
      (fun d => dayMerge ((mergeTaskSlots dayOf l).filter (fun p => dayOf p.1 == d)))).flatten
      = mergeTaskSlots dayOf l
  have hL : mergeTaskSlots dayOf l
      = ((dedupKeys (l.map (fun p => dayOf p.1))).map
          (fun d => dayMerge (l.filter (fun q => dayOf q.1 == d)))).flatten := rfl
  rw [hL, hkeys]
  have hmap : (dedupKeys (l.map (fun p => dayOf p.1))).map
      (fun d => dayMerge
        ((((dedupKeys (l.map (fun p => dayOf p.1))).map
            (fun d2 => dayMerge (l.filter (fun q => dayOf q.1 == d2)))).flatten).filter
          (fun p => dayOf p.1 == d)))
      = (dedupKeys (l.map (fun p => dayOf p.1))).map
          (fun d => dayMerge (l.filter (fun q => dayOf q.1 == d))) := by
    refine List.map_congr_left ?_
    intro d hd
    rw [hfilt d hd]
    refine dayMerge_idem _ ?_
    intro p hp
    exact hg p (List.mem_of_mem_filter hp)
  rw [hmap]

/-- **C9**: `combine_consecutive_slots` is idempotent on solved interval lists
(whose intervals have nonnegative length, as every solved SplitInterval does):
merged day blocks keep their day, do not introduce new mergeable adjacencies,
and stay sorted, so a second application reproduces the same association
list. -/
theorem C9_combine_consecutive_slots_idempotent (dayOf : Int → Int)
    (ts : List (String × List (Int × Int)))
    (hgood : ∀ t ∈ ts, ∀ p ∈ t.2, p.1 ≤ p.2) :
    combine_consecutive_slots dayOf (combine_consecutive_slots dayOf ts)
      = combine_consecutive_slots dayOf ts := by
  have hCfilter : (combine_consecutive_slots dayOf ts).filter (fun t => !t.2.isEmpty)
      = combine_consecutive_slots dayOf ts := by
    refine List.filter_eq_self.2 ?_
    intro x hx
    obtain ⟨t, ht, hne, rfl⟩ := mem_combine.1 hx
    have hmne := mergeTaskSlots_ne_nil dayOf hne
    cases hmt : mergeTaskSlots dayOf t.2 with
    | nil => exact absurd hmt hmne
    | cons a as => simp [hmt]
  rw [show combine_consecutive_slots dayOf (combine_consecutive_slots dayOf ts)
      = ((combine_consecutive_slots dayOf ts).filter (fun t => !t.2.isEmpty)).map
          (fun t => (t.1, mergeTaskSlots dayOf t.2)) from rfl]
  rw [hCfilter]
  rw [show combine_consecutive_slots dayOf ts
      = (ts.filter (fun t => !t.2.isEmpty)).map
          (fun t => (t.1, mergeTaskSlots dayOf t.2)) from rfl]
  rw [List.map_map]
  refine List.map_congr_left ?_
  intro t ht
  have htg : ∀ p ∈ t.2, p.1 ≤ p.2 := hgood t (List.mem_of_mem_filter ht)
  show (t.1, mergeTaskSlots dayOf (mergeTaskSlots dayOf t.2)) = (t.1, mergeTaskSlots dayOf t.2)
  rw [mergeTaskSlots_idem dayOf t.2 htg]

/-- **C9** witness: a three-interval task list spanning two days, with
out-of-order and mergeable intervals. -/
theorem C9_witness :
    combine_consecutive_slots dayOfTimestamp
        (combine_consecutive_slots dayOfTimestamp
          [("a", [(300, 600), (0, 300), (90000, 90300)]), ("b", [])])
      = combine_consecutive_slots dayOfTimestamp
          [("a", [(300, 600), (0, 300), (90000, 90300)]), ("b", [])] :=
  C9_combine_consecutive_slots_idempotent dayOfTimestamp
    [("a", [(300, 600), (0, 300), (90000, 90300)]), ("b", [])] (by decide)

/-! ### Concrete instances used by the per-claim theorems -/

/-- Two 5-minute tasks in different categories with disjoint availability. -/
def taskG1 : Task := ⟨"G1", 0, 10000, 5, 1, "w"⟩

def taskG2 : Task := ⟨"G2", 0, 10000, 5, 1, "v"⟩

def slotsG12 : List (Int × Int × String) :=
  [(0, 300, "w"), (300, 600, "w"), (600, 900, "w"),
   (600, 900, "v"), (900, 1200, "v"), (1200, 1500, "v")]

/-- A satisfying assignment for `buildModel [taskG1, taskG2] slotsG12`. -/
def asgG12 : Assignment :=
  ⟨fun ti => if ti = 0 then 0 else 600,
   fun ti => if ti = 0 then 300 else 900,
   fun ti _ => if ti = 0 then 0 else 600⟩

/-- A 10-minute task split across two of its three candidate slots. -/
def taskG : Task := ⟨"G", 0, 900, 10, 1, "w"⟩

def slotsG : List (Int × Int × String) := [(0, 300, "w"), (300, 600, "w"), (600, 900, "w")]

/-- A satisfying assignment for `buildModel [taskG] slotsG`. -/
def asgG : Assignment :=
  ⟨fun _ => 0, fun _ => 600, fun _ si => if si = 0 then 0 else 300⟩

/-- **C2** witness: a two-task instance with a satisfying assignment. -/
theorem C2_witness :
    Sat asgG12 (buildModel [taskG1, taskG2] slotsG12).1 ∧
    (∀ p ∈ reconstructedSchedule dayOfTimestamp asgG12 (buildModel [taskG1, taskG2] slotsG12).1,
      ∀ q ∈ reconstructedSchedule dayOfTimestamp asgG12 (buildModel [taskG1, taskG2] slotsG12).1,
      p.1 ≠ q.1 → ∀ b1 ∈ p.2, ∀ b2 ∈ q.2, ¬ rangesIntersect b1 b2) :=
  ⟨by decide,
   C2_reconstructed_blocks_no_cross_task_overlap dayOfTimestamp
     (buildModel [taskG1, taskG2] slotsG12).1 asgG12 (by decide)⟩

/-- **C10** witness: a one-task instance whose two splits are separated. -/
theorem C10_witness :
    ((∀ p ∈ slotsG, p.1 < p.2.1) ∧ Sat asgG (buildModel [taskG] slotsG).1) ∧
    (∀ (i j si sj : Nat) (ri rj : RegTask) (spi spj : (Int × Int) × Int),
      (buildModel [taskG] slotsG).1[i]? = some ri →
      (buildModel [taskG] slotsG).1[j]? = some rj →
      ri.splits[si]? = some spi → rj.splits[sj]? = some spj →
      (i, si) ≠ (j, sj) →
      asgG.splitPos i si + spi.2 ≤ asgG.splitPos j sj ∨
      asgG.splitPos j sj + spj.2 ≤ asgG.splitPos i si) :=
  ⟨⟨by decide, by decide⟩,
   C10_no_overlap_includes_same_task_pairs [taskG] slotsG (by decide) asgG (by decide)⟩

/-- A task needing 600 seconds whose only candidate slot provides 300. -/
def taskA1 : Task := ⟨"A", 0, 600, 10, 1, "w"⟩

def slotsA1 : List (Int × Int × String) := [(0, 300, "w")]

/-- One availability rule for category "w", Mondays, covering seconds 0-600 of
the day; day 0 is a Monday. -/
def schedD : List (String × List AvailRule) := [("w", [⟨["Monday"], 0, 600⟩])]

def slotsD : List (Int × Int × String) := create_time_slots schedD 0 0

/-- Scenario D of the spec: deadline 600 = start bound 0 plus duration
10 min · 60 = 600 seconds, with candidate slots spanning exactly [0, 600). -/
def taskD : Task := ⟨"D", 0, 600, 10, 1, "w"⟩

/-- The single registered task `buildModel [taskD] slotsD` produces. -/
def regD : RegTask := ⟨"D", 0, 300, 600, 1, [((0, 300), 300), ((300, 600), 300)], false⟩

/-- A task whose category has no availability at all. -/
def taskZ : Task := ⟨"Z", 0, 600, 1, 1, "zz"⟩

/-- For `taskD` the start and end variables both have domain [0, 300] (the
candidate start times), yet the model also demands `end = start + 600`:
no assignment can satisfy the built model. -/
theorem regD_unsat : ¬ ∃ a : Assignment, Sat a [regD] := by
  rintro ⟨a, ha⟩
  have hts := ha.1 ⟨0, by decide⟩
  have h1 : regD.startLo ≤ a.taskStart 0 := hts.1
  have h4 : a.taskEnd 0 ≤ regD.startHi := hts.2.2.2.1
  have h5 : a.taskEnd 0 = a.taskStart 0 + regD.durationSec := hts.2.2.2.2.1
  have hlo : regD.startLo = 0 := rfl
  have hhi : regD.startHi = 300 := rfl
  have hdur : regD.durationSec = 600 := rfl
  omega

/-! ### C1 -/

/-- **C1** (code bug evidence): task "A" needs 600 seconds but its candidate
slots provide only 300.  The loop issues the `delayed` status update, yet — in
contrast with the zero-candidate branch, which `continue`s — it still registers
the task: the task appears in `task_vars` with its SplitInterval, so the
interval joins `overlap_intervals` and the task's start variable joins the
objective; nothing excludes it from solving. -/
theorem C1_insufficient_capacity_task_still_registered :
    (buildModel [taskA1] slotsA1).2 = [("A", "delayed")] ∧
    (buildModel [taskA1] slotsA1).1.map RegTask.name = ["A"] ∧
    (buildModel [taskA1] slotsA1).1.map RegTask.splits = [[((0, 300), 300)]] ∧
    (buildModel [taskA1] slotsA1).1.map RegTask.delayed = [true] := by
  decide

/-! ### C5 -/

/-- **C5** (code bug evidence): for scenario D — deadline equal to start bound
plus exactly the required duration, with candidate slots spanning that exact
window — the claim asserts the model is feasible and yields one block covering
the window.  In fact the built model is unsatisfiable: both `task_start` and
`task_end` get the domain `[min starts, max starts] = [0, 300]` (line 165 uses
the start times for the end variable too), which contradicts
`end = start + 600`; the pass can only report "No solution found.". -/
theorem C5_exact_fit_window_model_infeasible :
    validSlots taskD slotsD = [(0, 300), (300, 600)] ∧
    (buildModel [taskD] slotsD).1 = [regD] ∧
    ¬ ∃ a : Assignment, Sat a (buildModel [taskD] slotsD).1 := by
  refine ⟨by decide, by decide, ?_⟩
  have h : (buildModel [taskD] slotsD).1 = [regD] := by decide
  rw [h]
  exact regD_unsat

/-! ### C4 -/

/-- A 5-minute task with three candidate slots. -/
def taskF : Task := ⟨"T", 0, 10000, 5, 1, "w"⟩

def slotsF : List (Int × Int × String) := [(0, 300, "w"), (300, 600, "w"), (600, 900, "w")]

def regsF : List RegTask := (buildModel [taskF] slotsF).1

/-- An assignment placing the task's single split at position 0 and setting
`task_start = 0`. -/
def asgF1 : Assignment := ⟨fun _ => 0, fun _ => 300, fun _ _ => 0⟩

/-- An assignment with the identical split position 0 but `task_start = 300`. -/
def asgF2 : Assignment := ⟨fun _ => 300, fun _ => 600, fun _ _ => 0⟩

/-- **C4** (code bug evidence): the built model contains no constraint linking
`task_start` to any SplitInterval position.  Two assignments with identical
split-interval placements but different `task_start` values both satisfy every
constraint of the model, and they give the objective different values — so the
objective Σ(priority × task_start) does not range over the solved placement of
the intervals, contradicting the claimed equality with the earliest
SplitInterval's position. -/
theorem C4_task_start_unconstrained_by_intervals :
    regsF = [⟨"T", 0, 600, 300, 1, [((0, 300), 300)], false⟩] ∧
    Sat asgF1 regsF ∧ Sat asgF2 regsF ∧
    (∀ ti si : Nat, asgF1.splitPos ti si = asgF2.splitPos ti si) ∧
    asgF1.taskStart 0 ≠ asgF2.taskStart 0 ∧
    objective asgF1 regsF ≠ objective asgF2 regsF := by
  have hr : regsF = [⟨"T", 0, 600, 300, 1, [((0, 300), 300)], false⟩] := by decide
  refine ⟨hr, by decide, by decide, fun _ _ => rfl, by decide, ?_⟩
  rw [hr]
  norm_num [objective, List.enum, asgF1, asgF2]

/-! ### C7 -/

def tasksC7 : List Task := [taskZ, taskD]

/-- **C7** counterexample: a pass over `tasksC7` — a task with no candidate
slots plus scenario D's task — has an unsatisfiable model, so its solver
outcome is INFEASIBLE; yet the pass did issue a status-update call (the
`delayed` marking of "Z"), refuting the claim that no status-update call is
issued during the entire failed pass. -/
theorem C7_counterexample_failed_pass_issues_update :
    (¬ ∃ a : Assignment, Sat a (buildModel tasksC7 slotsD).1) ∧
    (runPass dayOfTimestamp tasksC7 slotsD Outcome.infeasible).2 = PassResult.noSolution ∧
    (runPass dayOfTimestamp tasksC7 slotsD Outcome.infeasible).1 = [("Z", "delayed")] ∧
    ¬ (runPass dayOfTimestamp tasksC7 slotsD Outcome.infeasible).1 = [] := by
  refine ⟨?_, by decide, by decide, by decide⟩
  have h : (buildModel tasksC7 slotsD).1 = [regD] := by decide
  rw [h]
  exact regD_unsat

/-- Every status update issued by the model-building loop is a `delayed`
marking. -/
theorem buildModel_updates_delayed (tasks : List Task) (all : List (Int × Int × String)) :
    ∀ u ∈ (buildModel tasks all).2, u.2 = "delayed" := by
  induction tasks with
  | nil => simp [buildModel]
  | cons t ts ih =>
    intro u hu
    simp only [buildModel] at hu
    rcases hv : validSlots t all with - | ⟨v, vs⟩
    · rw [hv] at hu
      rcases List.mem_cons.1 hu with h | h
      · rw [h]
      · exact ih u h
    · rw [hv] at hu
      simp only at hu
      by_cases hrem : 0 < splitRemaining (t.duration * 60) (v :: vs)
      · rw [if_pos hrem] at hu
        rcases List.mem_cons.1 hu with h | h
        · rw [h]
        · exact ih u h
      · rw [if_neg hrem] at hu
        exact ih u hu

/-- **C7** (amended): on an INFEASIBLE or UNKNOWN solver outcome the pass
emits the single "no schedule found" report and no partial schedule, and the
output stage issues no status updates — the pass's update list is exactly what
the model-building stage already issued, every entry of which is a `delayed`
marking of an unschedulable task. -/
theorem C7_failed_pass_no_schedule_no_output_updates (dayOf : Int → Int)
    (tasks : List Task) (all : List (Int × Int × String)) (oc : Outcome)
    (h : oc = Outcome.infeasible ∨ oc = Outcome.unknown) :
    (runPass dayOf tasks all oc).2 = PassResult.noSolution ∧
    (runPass dayOf tasks all oc).1 = (buildModel tasks all).2 ∧
    ∀ u ∈ (runPass dayOf tasks all oc).1, u.2 = "delayed" := by
  rcases h with h | h <;> rw [h] <;>
    exact ⟨rfl, rfl, buildModel_updates_delayed tasks all⟩

/-- **C7** witness: the amended statement at the concrete failing instance. -/
theorem C7_witness :
    (runPass dayOfTimestamp tasksC7 slotsD Outcome.infeasible).2 = PassResult.noSolution ∧
    (runPass dayOfTimestamp tasksC7 slotsD Outcome.infeasible).1 =
      (buildModel tasksC7 slotsD).2 ∧
    ∀ u ∈ (runPass dayOfTimestamp tasksC7 slotsD Outcome.infeasible).1, u.2 = "delayed" :=
  C7_failed_pass_no_schedule_no_output_updates dayOfTimestamp tasksC7 slotsD
    Outcome.infeasible (Or.inl rfl)

end Scheduler
